import Mathlib

/-!
Verification of the GSN client core (fee negotiation, the `waitForSuccess`
race-with-grace-period selector, and the gas-price oracle fetcher) against a
shallow embedding of `packages/common/src/Utils.ts` and the spec of the
`GasPriceFetcher`.

Conventions of the embedding:
* JavaScript numbers carrying fee values are modelled as integers (`Int`),
  and the floating-point division inside `Math.round` is modelled as exact
  rational division; `Math.round` (round half towards positive infinity)
  is Mathlib's `round` on `Rat`.
* The promise race `waitForSuccess` is modelled as a deterministic state
  machine processing probe-settlement events in arrival (time) order, with
  the one-shot grace timer and the one-shot promise resolution made
  explicit.  A probe is described by `Option (Nat, Except String T)`:
  `none` is a probe that never settles, `some (t, out)` settles at time `t`
  with outcome `out`.  The resolved outcome is the snapshot of the
  accumulated results and errors at the moment `resolve` first fires.
-/

/-! ## FeeNegotiator: `adjustGasCostParameterUp` (Utils.ts 476-485) -/

/-- Embedding of `Utils.ts adjustGasCostParameterUp`: return the client value
if it already meets the server minimum (with 0% delta), otherwise the server
minimum together with `Math.round(((min - client) * 100) / client)`. -/
def adjustGasCostParameterUp (clientInput pingResponseMinimum : Int) :
    Int × Int :=
  if clientInput ≥ pingResponseMinimum then
    (clientInput, 0)
  else
    (pingResponseMinimum,
      round ((((pingResponseMinimum - clientInput) * 100 : Int) : ℚ) / (clientInput : ℚ)))

/-! ## FeeNegotiator: `adjustRelayRequestForPingResponse` (Utils.ts 492-516) -/

/-- The two EIP-1559 fee parameters, as base-unit integers. -/
structure EIP1559Fees where
  maxPriorityFeePerGas : Int
  maxFeePerGas : Int
deriving Repr, DecidableEq

/-- The server-declared fee minimums carried in a ping response. -/
structure PingResponse where
  minMaxPriorityFeePerGas : Int
  minMaxFeePerGas : Int
deriving Repr, DecidableEq

/-- Result of negotiating the two fee parameters against a ping response. -/
structure RelaySelectionResult where
  maxDeltaPercent : Int
  updatedGasFees : EIP1559Fees
deriving Repr, DecidableEq

/-- Embedding of `Utils.ts adjustRelayRequestForPingResponse`: adjust both fee
parameters up to the server minimums and report the larger of the two delta
percentages. -/
def adjustRelayRequestForPingResponse (feesIn : EIP1559Fees)
    (pingResponse : PingResponse) : RelaySelectionResult :=
  let maxPriorityFeePerGas :=
    adjustGasCostParameterUp feesIn.maxPriorityFeePerGas pingResponse.minMaxPriorityFeePerGas
  let maxFeePerGas :=
    adjustGasCostParameterUp feesIn.maxFeePerGas pingResponse.minMaxFeePerGas
  { maxDeltaPercent := max maxFeePerGas.2 maxPriorityFeePerGas.2,
    updatedGasFees :=
      { maxPriorityFeePerGas := maxPriorityFeePerGas.1,
        maxFeePerGas := maxFeePerGas.1 } }

/-- C1: per-parameter fee negotiation.  With `clientInput ≥ 1`: the resolved
value is the max of the two inputs; when the client value meets the minimum
the pair is `(clientInput, 0)`; otherwise it is the minimum together with
`round((min - client) * 100 / client)` rounded half-up on the exact rational
quotient; and the two worked examples from the spec hold. -/
theorem adjustGasCostParameterUp_correct (c m : Int) (hc : 1 ≤ c) :
    (adjustGasCostParameterUp c m).1 = max c m ∧
    (m ≤ c → adjustGasCostParameterUp c m = (c, 0)) ∧
    (c < m →
      adjustGasCostParameterUp c m =
        (m, round ((((m : ℚ) - (c : ℚ)) * 100) / (c : ℚ)))) ∧
    adjustGasCostParameterUp 100 100 = (100, 0) ∧
    adjustGasCostParameterUp 100 150 = (150, 50) := by
  refine ⟨?_, ?_, ?_, by norm_num [adjustGasCostParameterUp],
    by norm_num [adjustGasCostParameterUp, round_eq]⟩
  · by_cases h : c ≥ m
    · simp [adjustGasCostParameterUp, h, max_eq_left h]
    · have h' : c < m := lt_of_not_ge h
      simp [adjustGasCostParameterUp, h, max_eq_right (le_of_lt h')]
  · intro h
    simp [adjustGasCostParameterUp, h]
  · intro h
    have h' : ¬ c ≥ m := not_le.mpr h
    simp only [adjustGasCostParameterUp, h', if_false]
    congr 1
    push_cast
    ring_nf

/-- Closed witness for `adjustGasCostParameterUp_correct`. -/
theorem adjustGasCostParameterUp_correct_witness :
    (adjustGasCostParameterUp 100 150).1 = max 100 150 ∧
    ((150 : Int) ≤ 100 → adjustGasCostParameterUp 100 150 = (100, 0)) ∧
    ((100 : Int) < 150 →
      adjustGasCostParameterUp 100 150 =
        (150, round ((((150 : ℚ) - (100 : ℚ)) * 100) / (100 : ℚ)))) ∧
    adjustGasCostParameterUp 100 100 = (100, 0) ∧
    adjustGasCostParameterUp 100 150 = (150, 50) :=
  adjustGasCostParameterUp_correct 100 150 (by decide)

/-- C2: the negotiation result's `maxDeltaPercent` is the larger (maximum, not
sum or average) of the two per-parameter deltas, `updatedGasFees` carries each
parameter's resolved value (the max of client value and server minimum), and
the spec's example — per-parameter deviations 10% and 50% — yields overall 50%.
-/
theorem adjustRelayRequestForPingResponse_correct :
    (∀ (f : EIP1559Fees) (p : PingResponse),
      (adjustRelayRequestForPingResponse f p).maxDeltaPercent =
        max (adjustGasCostParameterUp f.maxFeePerGas p.minMaxFeePerGas).2
            (adjustGasCostParameterUp f.maxPriorityFeePerGas p.minMaxPriorityFeePerGas).2 ∧
      (adjustRelayRequestForPingResponse f p).updatedGasFees.maxPriorityFeePerGas =
        max f.maxPriorityFeePerGas p.minMaxPriorityFeePerGas ∧
      (adjustRelayRequestForPingResponse f p).updatedGasFees.maxFeePerGas =
        max f.maxFeePerGas p.minMaxFeePerGas) ∧
    (adjustGasCostParameterUp 100 110).2 = 10 ∧
    (adjustGasCostParameterUp 100 150).2 = 50 ∧
    (adjustRelayRequestForPingResponse ⟨100, 100⟩ ⟨110, 150⟩).maxDeltaPercent = 50 := by
  have h10 : adjustGasCostParameterUp 100 110 = (110, 10) := by
    norm_num [adjustGasCostParameterUp, round_eq]
  have h50 : adjustGasCostParameterUp 100 150 = (150, 50) := by
    norm_num [adjustGasCostParameterUp, round_eq]
  have hmax :
      (adjustRelayRequestForPingResponse ⟨100, 100⟩ ⟨110, 150⟩).maxDeltaPercent = 50 := by
    show max (adjustGasCostParameterUp 100 150).2 (adjustGasCostParameterUp 100 110).2 = 50
    rw [h10, h50]; decide
  refine ⟨?_, by rw [h10], by rw [h50], hmax⟩
  intro f p
  refine ⟨rfl, ?_, ?_⟩ <;>
    · show (adjustGasCostParameterUp _ _).1 = _
      unfold adjustGasCostParameterUp
      split
      · next h => exact (max_eq_left h).symm
      · next h => exact (max_eq_right (le_of_lt (lt_of_not_ge h))).symm

/-! ## RaceSelector: `waitForSuccess` (Utils.ts 424-465)

The promise race is embedded as a state machine over settlement events.
Each input probe either never settles (`none`) or settles at a given time
with `Except.ok` (success) or `Except.error` (failure).  Events are
processed in arrival order (time order, ties broken by probe index, which
is how the JS event loop schedules the continuations).  Before handling an
event the pending grace timer is checked: if its deadline lies strictly
before the event, the promise resolves (one-shot) with a snapshot of the
accumulated state, exactly like the `setTimeout(complete, graceTime)` call
in the source.  Settling a probe appends to `results` (arming the timer on
the first success) or to `errors`, and then performs the source's
`results.length + errors.size === promises.length` completion check. -/

/-- One probe settlement: at `time`, the probe identified by `key` settles
with `outcome`. -/
structure RaceEvent (T : Type) where
  time : Nat
  key : String
  outcome : Except String T
deriving Repr

/-- Embedding of the `WaitForSuccessResults` interface of Utils.ts: ordered
successful results plus the key-to-error mapping (as an association list in
insertion order). -/
structure WaitForSuccessResults (T : Type) where
  results : List T
  errors : List (String × String)
deriving Repr

/-- Mutable state of one race: accumulated results and errors, the armed
grace deadline (if any), and the one-shot resolution (time and snapshot)
once `resolve` has fired. -/
structure RaceState (T : Type) where
  results : List T
  errors : List (String × String)
  deadline : Option Nat
  resolved : Option (Nat × WaitForSuccessResults T)
deriving Repr

/-- Whether a settlement event is a success. -/
def RaceEvent.isSuccess {T : Type} (e : RaceEvent T) : Bool :=
  match e.outcome with
  | .ok _ => true
  | .error _ => false

/-- If the grace timer is armed, unresolved, and its deadline lies strictly
before the present instant `t`, it has fired in between: resolve with the
current snapshot. -/
def checkTimer {T : Type} (s : RaceState T) (t : Nat) : RaceState T :=
  match s.deadline, s.resolved with
  | some d, none =>
      if d < t then { s with resolved := some (d, ⟨s.results, s.errors⟩) } else s
  | _, _ => s

/-- The `.then`/`.catch` handlers: push a success onto `results` (arming the
grace timer when it is the first success) or record a failure under the
probe's key. -/
def recordSettle {T : Type} (graceTime : Nat) (s : RaceState T) (e : RaceEvent T) :
    RaceState T :=
  match e.outcome with
  | .ok r =>
      let rs := s.results ++ [r]
      { s with
        results := rs,
        deadline := if rs.length = 1 then some (e.time + graceTime) else s.deadline }
  | .error msg => { s with errors := s.errors ++ [(e.key, msg)] }

/-- The `.finally` handler: if every one of the `n` probes has settled and
the promise is still pending, resolve now with the current snapshot. -/
def resolveIfDone {T : Type} (n t : Nat) (s : RaceState T) : RaceState T :=
  match s.resolved with
  | some _ => s
  | none =>
      if s.results.length + s.errors.length = n then
        { s with resolved := some (t, ⟨s.results, s.errors⟩) }
      else s

/-- Handle one settlement event. -/
def settleStep {T : Type} (n graceTime : Nat) (s : RaceState T) (e : RaceEvent T) :
    RaceState T :=
  resolveIfDone n e.time (recordSettle graceTime (checkTimer s e.time) e)

/-- Handle a list of settlement events in order. -/
def runEvents {T : Type} (n graceTime : Nat) (s : RaceState T) :
    List (RaceEvent T) → RaceState T
  | [] => s
  | e :: es => runEvents n graceTime (settleStep n graceTime s e) es

/-- After the last settlement: a still-armed, still-pending grace timer
eventually fires and resolves with the final snapshot. -/
def finalizeRace {T : Type} (s : RaceState T) : RaceState T :=
  match s.deadline, s.resolved with
  | some d, none => { s with resolved := some (d, ⟨s.results, s.errors⟩) }
  | _, _ => s

/-- Stable insertion into a time-sorted event list. -/
def insertByTime {T : Type} (e : RaceEvent T) : List (RaceEvent T) → List (RaceEvent T)
  | [] => [e]
  | f :: fs => if e.time ≤ f.time then e :: f :: fs else f :: insertByTime e fs

/-- Stable sort of events by settlement time: the arrival order of the
continuations on the JS event loop. -/
def sortByTime {T : Type} : List (RaceEvent T) → List (RaceEvent T)
  | [] => []
  | e :: es => insertByTime e (sortByTime es)

/-- The settlement events of a probe list: each settling probe paired with
its error key. -/
def eventsOf {T : Type} (promises : List (Option (Nat × Except String T)))
    (errorKeys : List String) : List (RaceEvent T) :=
  (promises.zip errorKeys).filterMap fun pk =>
    pk.1.map fun so => ⟨so.1, pk.2, so.2⟩

/-- Embedding of the duplicate-key scan of Utils.ts 431-436: some position
`i` holds a key whose first occurrence is not `i`. -/
def hasDuplicateKeys (errorKeys : List String) : Bool :=
  (List.range errorKeys.length).any fun i =>
    ! (errorKeys.indexOf (errorKeys.getD i "") == i)

/-- The final race state reached after validation: all settlement events are
handled in arrival order starting from the empty state, then the pending
grace timer (if any) fires. -/
def raceFinalState {T : Type} (promises : List (Option (Nat × Except String T)))
    (errorKeys : List String) (graceTime : Nat) : RaceState T :=
  finalizeRace
    (runEvents promises.length graceTime ⟨[], [], none, none⟩
      (sortByTime (eventsOf promises errorKeys)))

/-- Embedding of `Utils.ts waitForSuccess`.  Synchronous validation throws
(`Except.error`) on a length mismatch or duplicate keys; otherwise the
returned value is the race's resolution: `none` when the promise never
settles, `some (t, out)` when it resolves at time `t` with snapshot `out`. -/
def waitForSuccess {T : Type} (promises : List (Option (Nat × Except String T)))
    (errorKeys : List String) (graceTime : Nat) :
    Except String (Option (Nat × WaitForSuccessResults T)) :=
  if promises.length ≠ errorKeys.length then
    .error "Invalid errorKeys length"
  else if hasDuplicateKeys errorKeys then
    .error "waitForSuccess: duplicate relay URL keys, aborting"
  else
    .ok (raceFinalState promises errorKeys graceTime).resolved

/-- The successful values of an event list, in order. -/
def okResults {T : Type} : List (RaceEvent T) → List T :=
  List.filterMap fun e =>
    match e.outcome with
    | .ok r => some r
    | .error _ => none

/-- The failure entries (key, message) of an event list, in order. -/
def errEntries {T : Type} : List (RaceEvent T) → List (String × String) :=
  List.filterMap fun e =>
    match e.outcome with
    | .ok _ => none
    | .error msg => some (e.key, msg)

/-- Settlement time of the last event (0 for the empty list). -/
def lastTimeD {T : Type} : List (RaceEvent T) → Nat
  | [] => 0
  | [e] => e.time
  | _ :: es => lastTimeD es

/-! ## Helper lemmas about event lists -/

theorem okResults_nil {T : Type} : okResults ([] : List (RaceEvent T)) = [] := rfl

theorem errEntries_nil {T : Type} : errEntries ([] : List (RaceEvent T)) = [] := rfl

theorem okResults_cons_ok {T : Type} (e : RaceEvent T) (r : T) (es : List (RaceEvent T))
    (h : e.outcome = .ok r) : okResults (e :: es) = r :: okResults es := by
  simp [okResults, List.filterMap_cons, h]

theorem okResults_cons_err {T : Type} (e : RaceEvent T) (msg : String)
    (es : List (RaceEvent T)) (h : e.outcome = .error msg) :
    okResults (e :: es) = okResults es := by
  simp [okResults, List.filterMap_cons, h]

theorem errEntries_cons_ok {T : Type} (e : RaceEvent T) (r : T) (es : List (RaceEvent T))
    (h : e.outcome = .ok r) : errEntries (e :: es) = errEntries es := by
  simp [errEntries, List.filterMap_cons, h]

theorem errEntries_cons_err {T : Type} (e : RaceEvent T) (msg : String)
    (es : List (RaceEvent T)) (h : e.outcome = .error msg) :
    errEntries (e :: es) = (e.key, msg) :: errEntries es := by
  simp [errEntries, List.filterMap_cons, h]

theorem okResults_append {T : Type} (l₁ l₂ : List (RaceEvent T)) :
    okResults (l₁ ++ l₂) = okResults l₁ ++ okResults l₂ := by
  simp [okResults, List.filterMap_append]

theorem errEntries_append {T : Type} (l₁ l₂ : List (RaceEvent T)) :
    errEntries (l₁ ++ l₂) = errEntries l₁ ++ errEntries l₂ := by
  simp [errEntries, List.filterMap_append]

/-- An event is a success or a failure; destructured form of `isSuccess`. -/
theorem outcome_of_isSuccess_false {T : Type} (e : RaceEvent T)
    (h : e.isSuccess = false) : ∃ msg, e.outcome = .error msg := by
  cases ho : e.outcome with
  | ok r => simp [RaceEvent.isSuccess, ho] at h
  | error msg => exact ⟨msg, rfl⟩

theorem outcome_of_isSuccess_true {T : Type} (e : RaceEvent T)
    (h : e.isSuccess = true) : ∃ r, e.outcome = .ok r := by
  cases ho : e.outcome with
  | ok r => exact ⟨r, rfl⟩
  | error msg => simp [RaceEvent.isSuccess, ho] at h

theorem length_okResults_add_errEntries {T : Type} (es : List (RaceEvent T)) :
    (okResults es).length + (errEntries es).length = es.length := by
  induction es with
  | nil => rfl
  | cons e es ih =>
    cases ho : e.outcome with
    | ok r => rw [okResults_cons_ok e r es ho, errEntries_cons_ok e r es ho]; simp; omega
    | error m => rw [okResults_cons_err e m es ho, errEntries_cons_err e m es ho]; simp; omega

theorem okResults_eq_nil_of_noSuccess {T : Type} (es : List (RaceEvent T))
    (h : ∀ e ∈ es, e.isSuccess = false) : okResults es = [] := by
  induction es with
  | nil => rfl
  | cons e es ih =>
    obtain ⟨msg, hm⟩ := outcome_of_isSuccess_false e (h e (by simp))
    rw [okResults_cons_err e msg es hm]
    exact ih fun x hx => h x (by simp [hx])

theorem length_errEntries_of_noSuccess {T : Type} (es : List (RaceEvent T))
    (h : ∀ e ∈ es, e.isSuccess = false) : (errEntries es).length = es.length := by
  have := length_okResults_add_errEntries es
  rw [okResults_eq_nil_of_noSuccess es h] at this
  simpa using this

theorem errEntries_map_fst_of_noSuccess {T : Type} (es : List (RaceEvent T))
    (h : ∀ e ∈ es, e.isSuccess = false) :
    (errEntries es).map Prod.fst = es.map RaceEvent.key := by
  induction es with
  | nil => rfl
  | cons e es ih =>
    obtain ⟨msg, hm⟩ := outcome_of_isSuccess_false e (h e (by simp))
    rw [errEntries_cons_err e msg es hm]
    simpa using ih fun x hx => h x (by simp [hx])

theorem errEntries_mem {T : Type} (es : List (RaceEvent T)) (kv : String × String)
    (h : kv ∈ errEntries es) :
    ∃ e ∈ es, e.key = kv.1 ∧ e.outcome = .error kv.2 := by
  simp only [errEntries, List.mem_filterMap] at h
  obtain ⟨e, he, hmatch⟩ := h
  refine ⟨e, he, ?_⟩
  cases ho : e.outcome with
  | ok r => simp [ho] at hmatch
  | error m =>
    simp [ho] at hmatch
    cases hmatch
    exact ⟨rfl, rfl⟩

/-- `lastTimeD` of a cons with nonempty tail. -/
theorem lastTimeD_cons {T : Type} (e : RaceEvent T) (es : List (RaceEvent T))
    (h : es ≠ []) : lastTimeD (e :: es) = lastTimeD es := by
  cases es with
  | nil => exact absurd rfl h
  | cons f fs => rfl

/-- The last time is the time of some member. -/
theorem lastTimeD_mem {T : Type} (es : List (RaceEvent T)) (h : es ≠ []) :
    ∃ e ∈ es, lastTimeD es = e.time := by
  induction es with
  | nil => exact absurd rfl h
  | cons e es ih =>
    cases es with
    | nil => exact ⟨e, by simp, rfl⟩
    | cons f fs =>
      obtain ⟨x, hx, hlt⟩ := ih (by simp)
      exact ⟨x, by simp [hx], by rw [lastTimeD_cons _ _ (by simp)]; exact hlt⟩

/-- In a time-sorted list every settlement time is at most the last time. -/
theorem time_le_lastTimeD {T : Type} (es : List (RaceEvent T))
    (hs : es.Pairwise (fun a b => a.time ≤ b.time)) (e : RaceEvent T) (he : e ∈ es) :
    e.time ≤ lastTimeD es := by
  induction es with
  | nil => simp at he
  | cons f fs ih =>
    rcases List.mem_cons.mp he with rfl | hmem
    · cases fs with
      | nil => exact le_refl _
      | cons g gs =>
        rw [lastTimeD_cons _ _ (by simp)]
        obtain ⟨x, hx, hlt⟩ := lastTimeD_mem (g :: gs) (by simp)
        rw [hlt]
        exact (List.pairwise_cons.mp hs).1 x hx
    · cases fs with
      | nil => simp at hmem
      | cons g gs =>
        rw [lastTimeD_cons _ _ (by simp)]
        exact ih (List.pairwise_cons.mp hs).2 hmem

theorem lastTimeD_append_cons {T : Type} (pre : List (RaceEvent T)) (e : RaceEvent T)
    (post : List (RaceEvent T)) :
    lastTimeD (pre ++ e :: post) = lastTimeD (e :: post) := by
  induction pre with
  | nil => rfl
  | cons f fs ih =>
    rw [List.cons_append, lastTimeD_cons, ih]
    simp

/-! ## Sorting lemmas -/

theorem insertByTime_perm {T : Type} (e : RaceEvent T) (l : List (RaceEvent T)) :
    (insertByTime e l).Perm (e :: l) := by
  induction l with
  | nil => exact List.Perm.refl _
  | cons f fs ih =>
    by_cases h : e.time ≤ f.time
    · simp [insertByTime, h]
    · simp only [insertByTime, h, if_false]
      exact (List.Perm.cons f ih).trans (List.Perm.swap e f fs)

theorem sortByTime_perm {T : Type} (l : List (RaceEvent T)) :
    (sortByTime l).Perm l := by
  induction l with
  | nil => exact List.Perm.refl _
  | cons e es ih =>
    exact (insertByTime_perm e (sortByTime es)).trans (List.Perm.cons e ih)

theorem insertByTime_pairwise {T : Type} (e : RaceEvent T) (l : List (RaceEvent T))
    (hl : l.Pairwise (fun a b => a.time ≤ b.time)) :
    (insertByTime e l).Pairwise (fun a b => a.time ≤ b.time) := by
  induction l with
  | nil => simp [insertByTime]
  | cons f fs ih =>
    obtain ⟨hf, hfs⟩ := List.pairwise_cons.mp hl
    by_cases h : e.time ≤ f.time
    · simp only [insertByTime, h, if_true]
      refine List.pairwise_cons.mpr ⟨?_, hl⟩
      intro x hx
      rcases List.mem_cons.mp hx with rfl | hx'
      · exact h
      · exact le_trans h (hf x hx')
    · simp only [insertByTime, h, if_false]
      refine List.pairwise_cons.mpr ⟨?_, ih hfs⟩
      intro x hx
      have hx2 := (insertByTime_perm e fs).mem_iff.mp hx
      rcases List.mem_cons.mp hx2 with rfl | hx''
      · exact le_of_lt (lt_of_not_ge h)
      · exact hf x hx''

theorem sortByTime_pairwise {T : Type} (l : List (RaceEvent T)) :
    (sortByTime l).Pairwise (fun a b => a.time ≤ b.time) := by
  induction l with
  | nil => simp [sortByTime]
  | cons e es ih => exact insertByTime_pairwise e (sortByTime es) ih

theorem insertByTime_of_le {T : Type} (e : RaceEvent T) (l : List (RaceEvent T))
    (h : ∀ x ∈ l, e.time ≤ x.time) : insertByTime e l = e :: l := by
  cases l with
  | nil => rfl
  | cons f fs => simp [insertByTime, h f (by simp)]

theorem sortByTime_eq_self {T : Type} (l : List (RaceEvent T))
    (hl : l.Pairwise (fun a b => a.time ≤ b.time)) : sortByTime l = l := by
  induction l with
  | nil => rfl
  | cons e es ih =>
    obtain ⟨he, hes⟩ := List.pairwise_cons.mp hl
    rw [sortByTime, ih hes, insertByTime_of_le e es he]

theorem sortByTime_length {T : Type} (l : List (RaceEvent T)) :
    (sortByTime l).length = l.length :=
  (sortByTime_perm l).length_eq

theorem sortByTime_mem {T : Type} (l : List (RaceEvent T)) (e : RaceEvent T) :
    e ∈ sortByTime l ↔ e ∈ l :=
  (sortByTime_perm l).mem_iff

/-! ## Run lemmas: characterizing `runEvents` -/

theorem runEvents_append {T : Type} (n g : Nat) (s : RaceState T)
    (l₁ l₂ : List (RaceEvent T)) :
    runEvents n g s (l₁ ++ l₂) = runEvents n g (runEvents n g s l₁) l₂ := by
  induction l₁ generalizing s with
  | nil => rfl
  | cons e es ih => simp [runEvents, ih]

/-- After the promise has resolved, further settlements only mutate the
accumulated lists; the resolved snapshot, and the deadline (as long as at
least one success was already recorded), are frozen. -/
theorem runEvents_resolved {T : Type} (n g : Nat) (rs : List T)
    (acc : List (String × String)) (dl : Option Nat)
    (p : Nat × WaitForSuccessResults T) (es : List (RaceEvent T)) (hrs : rs ≠ []) :
    runEvents n g ⟨rs, acc, dl, some p⟩ es =
      ⟨rs ++ okResults es, acc ++ errEntries es, dl, some p⟩ := by
  induction es generalizing rs acc with
  | nil => simp [runEvents, okResults_nil, errEntries_nil]
  | cons e es ih =>
    have hct : checkTimer ⟨rs, acc, dl, some p⟩ e.time = ⟨rs, acc, dl, some p⟩ := by
      cases dl <;> rfl
    cases ho : e.outcome with
    | ok r =>
      have hlen : ¬ (rs ++ [r]).length = 1 := by
        cases rs with
        | nil => exact absurd rfl hrs
        | cons a as => simp
      rw [runEvents, settleStep, hct, recordSettle, ho]
      simp only [hlen, if_false]
      rw [show resolveIfDone n e.time ⟨rs ++ [r], acc, dl, some p⟩ =
            ⟨rs ++ [r], acc, dl, some p⟩ from rfl]
      rw [ih (rs ++ [r]) acc (by simp), okResults_cons_ok e r es ho,
        errEntries_cons_ok e r es ho]
      simp
    | error msg =>
      rw [runEvents, settleStep, hct, recordSettle, ho]
      rw [show resolveIfDone n e.time ⟨rs, acc ++ [(e.key, msg)], dl, some p⟩ =
            ⟨rs, acc ++ [(e.key, msg)], dl, some p⟩ from rfl]
      rw [ih rs (acc ++ [(e.key, msg)]) hrs, okResults_cons_err e msg es ho,
        errEntries_cons_err e msg es ho]
      simp

/-- Reduction of `resolveIfDone` on a pending state. -/
theorem resolveIfDone_pending {T : Type} (n t : Nat) (rs : List T)
    (acc : List (String × String)) (dl : Option Nat) :
    resolveIfDone n t ⟨rs, acc, dl, none⟩ =
      if rs.length + acc.length = n then
        ⟨rs, acc, dl, some (t, ⟨rs, acc⟩)⟩
      else ⟨rs, acc, dl, none⟩ := rfl

/-- Phase lemma for races with no successful settlement: the timer is never
armed, every settlement appends an error entry, and the promise resolves
exactly when the accumulated error count reaches `n` — necessarily at the
last settlement. -/
theorem runEvents_noSuccess {T : Type} (n g : Nat) (acc : List (String × String))
    (es : List (RaceEvent T))
    (hfail : ∀ e ∈ es, e.isSuccess = false)
    (hle : acc.length + es.length ≤ n) :
    runEvents n g ⟨[], acc, none, none⟩ es =
      ⟨[], acc ++ errEntries es, none,
        if acc.length + es.length = n ∧ 0 < es.length then
          some (lastTimeD es, ⟨[], acc ++ errEntries es⟩)
        else none⟩ := by
  induction es generalizing acc with
  | nil => simp [runEvents, errEntries_nil]
  | cons e es ih =>
    obtain ⟨msg, ho⟩ := outcome_of_isSuccess_false e (hfail e (by simp))
    have hstep : settleStep n g ⟨[], acc, none, none⟩ e =
        resolveIfDone n e.time ⟨[], acc ++ [(e.key, msg)], none, none⟩ := by
      rw [settleStep, show checkTimer ⟨[], acc, none, none⟩ e.time =
        ⟨[], acc, none, none⟩ from rfl, recordSettle, ho]
    have hlen : acc.length + (e :: es).length = acc.length + es.length + 1 := by
      simp; omega
    by_cases hn : acc.length + 1 = n
    · have hes : es = [] := by
        have h2 : es.length = 0 := by
          have h3 := hle
          rw [hlen] at h3
          omega
        exact List.length_eq_zero.mp h2
      subst hes
      rw [runEvents, hstep, runEvents, resolveIfDone_pending,
        if_pos (by simp; omega), errEntries_cons_err e msg [] ho, errEntries_nil]
      rw [if_pos ⟨by simp; omega, by simp⟩]
      rfl
    · rw [runEvents, hstep, resolveIfDone_pending, if_neg (by simp; omega),
        ih (acc ++ [(e.key, msg)]) (fun x hx => hfail x (by simp [hx])) (by simp; omega),
        errEntries_cons_err e msg es ho]
      cases es with
      | nil =>
        rw [if_neg (by simp), if_neg (by simp; omega)]
        simp
      | cons f fs =>
        rw [lastTimeD_cons e (f :: fs) (by simp)]
        by_cases hsum : acc.length + (e :: f :: fs).length = n
        · rw [if_pos ⟨by simp at hsum ⊢; omega, by simp⟩, if_pos ⟨hsum, by simp⟩]
          simp
        · rw [if_neg (by simp at hsum ⊢; omega), if_neg (by simp at hsum ⊢; omega)]
          simp

/-- Phase lemma for the race after the first success: starting from a state
with at least one recorded result, an armed grace deadline `d`, and a pending
promise, a time-sorted run settles as follows.  If every remaining event
arrives by `d`, the promise resolves at the last settlement exactly when the
count reaches `n` (else it stays pending); otherwise the timer fires at `d`
and the resolution snapshot contains precisely the settlements that arrived
by `d`. -/
theorem runEvents_postSuccess {T : Type} (n g : Nat) (rs : List T)
    (acc : List (String × String)) (d : Nat) (es : List (RaceEvent T))
    (hrs : rs ≠ [])
    (hsorted : es.Pairwise (fun a b => a.time ≤ b.time))
    (hle : rs.length + acc.length + es.length ≤ n) :
    runEvents n g ⟨rs, acc, some d, none⟩ es =
      ⟨rs ++ okResults es, acc ++ errEntries es, some d,
        if es.all (fun x => decide (x.time ≤ d)) then
          (if rs.length + acc.length + es.length = n ∧ 0 < es.length then
            some (lastTimeD es, ⟨rs ++ okResults es, acc ++ errEntries es⟩)
          else none)
        else
          some (d, ⟨rs ++ okResults (es.takeWhile (fun x => decide (x.time ≤ d))),
                    acc ++ errEntries (es.takeWhile (fun x => decide (x.time ≤ d)))⟩)⟩ := by
  induction es generalizing rs acc with
  | nil => simp [runEvents, okResults_nil, errEntries_nil]
  | cons e es ih =>
    have hck : checkTimer ⟨rs, acc, some d, none⟩ e.time =
        if d < e.time then ⟨rs, acc, some d, some (d, ⟨rs, acc⟩)⟩
        else ⟨rs, acc, some d, none⟩ := rfl
    have htail := (List.pairwise_cons.mp hsorted).2
    by_cases he : e.time ≤ d
    · have hck' : checkTimer ⟨rs, acc, some d, none⟩ e.time = ⟨rs, acc, some d, none⟩ := by
        rw [hck, if_neg (by omega)]
      have hALL : ((e :: es).all (fun x => decide (x.time ≤ d))) =
          (es.all (fun x => decide (x.time ≤ d))) := by
        simp [List.all_cons, he]
      have hTW : (e :: es).takeWhile (fun x => decide (x.time ≤ d)) =
          e :: es.takeWhile (fun x => decide (x.time ≤ d)) := by
        rw [List.takeWhile_cons_of_pos (by simpa using he)]
      cases ho : e.outcome with
      | ok r =>
        have hlen1 : ¬ ((rs ++ [r]).length = 1) := by
          cases rs with
          | nil => exact absurd rfl hrs
          | cons a as => simp
        have hstep : settleStep n g ⟨rs, acc, some d, none⟩ e =
            resolveIfDone n e.time ⟨rs ++ [r], acc, some d, none⟩ := by
          rw [settleStep, hck', recordSettle, ho]
          simp only [hlen1, if_false]
        by_cases hn : (rs ++ [r]).length + acc.length = n
        · have hes : es = [] := by
            refine List.length_eq_zero.mp ?_
            simp only [List.length_append, List.length_singleton] at hn
            simp only [List.length_cons] at hle
            omega
          subst hes
          rw [runEvents, hstep, runEvents, resolveIfDone_pending, if_pos hn,
            okResults_cons_ok e r [] ho, okResults_nil,
            errEntries_cons_ok e r [] ho, errEntries_nil]
          rw [if_pos (by simp [he]), if_pos ?side]
          case side =>
            simp only [List.length_append, List.length_singleton] at hn
            exact ⟨by simp; omega, by simp⟩
          simp [lastTimeD]
        · have hle' : (rs ++ [r]).length + acc.length + es.length ≤ n := by
            simp only [List.length_append, List.length_singleton]
            simp only [List.length_cons] at hle
            omega
          rw [runEvents, hstep, resolveIfDone_pending, if_neg hn,
            ih (rs ++ [r]) acc (by simp) htail hle',
            okResults_cons_ok e r es ho, errEntries_cons_ok e r es ho, hALL, hTW,
            okResults_cons_ok e r (es.takeWhile fun x => decide (x.time ≤ d)) ho,
            errEntries_cons_ok e r (es.takeWhile fun x => decide (x.time ≤ d)) ho]
          by_cases hall : (es.all (fun x => decide (x.time ≤ d))) = true
          · rw [if_pos hall, if_pos hall]
            cases es with
            | nil =>
              rw [if_neg (by simp), if_neg ?neg2]
              case neg2 =>
                simp only [List.length_append, List.length_singleton] at hn
                exact fun hcontr => hn (by simp at hcontr ⊢; omega)
              simp
            | cons f fs =>
              have hiff : ((rs ++ [r]).length + acc.length + (f :: fs).length = n) ↔
                  (rs.length + acc.length + (e :: f :: fs).length = n) := by
                simp; omega
              rw [lastTimeD_cons e (f :: fs) (by simp)]
              by_cases hsum : rs.length + acc.length + (e :: f :: fs).length = n
              · rw [if_pos ⟨hiff.mpr hsum, by simp⟩, if_pos ⟨hsum, by simp⟩]
                simp
              · rw [if_neg (fun hc => hsum (hiff.mp hc.1)), if_neg (fun hc => hsum hc.1)]
                simp
          · rw [if_neg hall, if_neg hall]
            simp
      | error m =>
        have hstep : settleStep n g ⟨rs, acc, some d, none⟩ e =
            resolveIfDone n e.time ⟨rs, acc ++ [(e.key, m)], some d, none⟩ := by
          rw [settleStep, hck', recordSettle, ho]
        by_cases hn : rs.length + (acc ++ [(e.key, m)]).length = n
        · have hes : es = [] := by
            refine List.length_eq_zero.mp ?_
            simp only [List.length_append, List.length_singleton] at hn
            simp only [List.length_cons] at hle
            omega
          subst hes
          rw [runEvents, hstep, runEvents, resolveIfDone_pending, if_pos hn,
            okResults_cons_err e m [] ho, okResults_nil,
            errEntries_cons_err e m [] ho, errEntries_nil]
          rw [if_pos (by simp [he]), if_pos ?side2]
          case side2 =>
            simp only [List.length_append, List.length_singleton] at hn
            exact ⟨by simp; omega, by simp⟩
          simp [lastTimeD]
        · have hle' : rs.length + (acc ++ [(e.key, m)]).length + es.length ≤ n := by
            simp only [List.length_append, List.length_singleton]
            simp only [List.length_cons] at hle
            omega
          rw [runEvents, hstep, resolveIfDone_pending, if_neg hn,
            ih rs (acc ++ [(e.key, m)]) hrs htail hle',
            okResults_cons_err e m es ho, errEntries_cons_err e m es ho, hALL, hTW,
            errEntries_cons_err e m (es.takeWhile fun x => decide (x.time ≤ d)) ho,
            okResults_cons_err e m (es.takeWhile fun x => decide (x.time ≤ d)) ho]
          by_cases hall : (es.all (fun x => decide (x.time ≤ d))) = true
          · rw [if_pos hall, if_pos hall]
            cases es with
            | nil =>
              rw [if_neg (by simp), if_neg ?neg4]
              case neg4 =>
                simp only [List.length_append, List.length_singleton] at hn
                exact fun hcontr => hn (by simp at hcontr ⊢; omega)
              simp
            | cons f fs =>
              have hiff : (rs.length + (acc ++ [(e.key, m)]).length + (f :: fs).length = n) ↔
                  (rs.length + acc.length + (e :: f :: fs).length = n) := by
                simp; omega
              rw [lastTimeD_cons e (f :: fs) (by simp)]
              by_cases hsum : rs.length + acc.length + (e :: f :: fs).length = n
              · rw [if_pos ⟨hiff.mpr hsum, by simp⟩, if_pos ⟨hsum, by simp⟩]
                simp
              · rw [if_neg (fun hc => hsum (hiff.mp hc.1)), if_neg (fun hc => hsum hc.1)]
                simp
          · rw [if_neg hall, if_neg hall]
            simp
    · have hck'' : checkTimer ⟨rs, acc, some d, none⟩ e.time =
          ⟨rs, acc, some d, some (d, ⟨rs, acc⟩)⟩ := by
        rw [hck, if_pos (by omega)]
      have hallF : ¬ (((e :: es).all (fun x => decide (x.time ≤ d))) = true) := by
        simp [List.all_cons, he]
      have hTWF : (e :: es).takeWhile (fun x => decide (x.time ≤ d)) = [] := by
        rw [List.takeWhile_cons_of_neg (by simpa using he)]
      cases ho : e.outcome with
      | ok r =>
        have hlen1 : ¬ ((rs ++ [r]).length = 1) := by
          cases rs with
          | nil => exact absurd rfl hrs
          | cons a as => simp
        have hstep : settleStep n g ⟨rs, acc, some d, none⟩ e =
            ⟨rs ++ [r], acc, some d, some (d, ⟨rs, acc⟩)⟩ := by
          rw [settleStep, hck'', recordSettle, ho]
          simp only [hlen1, if_false]
          rfl
        rw [runEvents, hstep,
          runEvents_resolved n g (rs ++ [r]) acc (some d) (d, ⟨rs, acc⟩) es (by simp),
          okResults_cons_ok e r es ho, errEntries_cons_ok e r es ho,
          if_neg hallF, hTWF, okResults_nil, errEntries_nil]
        simp
      | error m =>
        have hstep : settleStep n g ⟨rs, acc, some d, none⟩ e =
            ⟨rs, acc ++ [(e.key, m)], some d, some (d, ⟨rs, acc⟩)⟩ := by
          rw [settleStep, hck'', recordSettle, ho]
          rfl
        rw [runEvents, hstep,
          runEvents_resolved n g rs (acc ++ [(e.key, m)]) (some d) (d, ⟨rs, acc⟩) es hrs,
          okResults_cons_err e m es ho, errEntries_cons_err e m es ho,
          if_neg hallF, hTWF, okResults_nil, errEntries_nil]
        simp

/-! ## takeWhile and find? helpers -/

theorem takeWhile_append_of_all {α : Type} (p : α → Bool) (l₁ l₂ : List α)
    (h : ∀ x ∈ l₁, p x = true) :
    (l₁ ++ l₂).takeWhile p = l₁ ++ l₂.takeWhile p := by
  induction l₁ with
  | nil => simp
  | cons a l ih =>
    rw [List.cons_append, List.takeWhile_cons_of_pos (h a (by simp)), ih]
    · rfl
    · exact fun x hx => h x (by simp [hx])

theorem takeWhile_eq_self_of_all {α : Type} (p : α → Bool) (l : List α)
    (h : ∀ x ∈ l, p x = true) : l.takeWhile p = l := by
  induction l with
  | nil => rfl
  | cons a l ih =>
    rw [List.takeWhile_cons_of_pos (h a (by simp)), ih fun x hx => h x (by simp [hx])]

theorem find?_split {α : Type} (p : α → Bool) (l : List α) (a : α)
    (h : l.find? p = some a) :
    ∃ l₁ l₂, l = l₁ ++ a :: l₂ ∧ (∀ x ∈ l₁, p x = false) ∧ p a = true := by
  induction l with
  | nil => simp [List.find?] at h
  | cons b l ih =>
    by_cases hb : p b = true
    · have hba : b = a := by
        have h2 := h
        simp only [List.find?, hb] at h2
        simpa using h2
      subst hba
      exact ⟨[], l, rfl, by simp, hb⟩
    · have hb' : p b = false := by simpa using hb
      have h2 := h
      simp only [List.find?, hb'] at h2
      obtain ⟨l₁, l₂, rfl, hl₁, ha⟩ := ih h2
      refine ⟨b :: l₁, l₂, by simp, ?_, ha⟩
      intro x hx
      rcases List.mem_cons.mp hx with rfl | hx'
      · exact hb'
      · exact hl₁ x hx'

/-! ## Full-run characterization -/

/-- A race in which no probe ever succeeds: nothing is recorded but errors,
no timer is armed, and the promise resolves — with an empty results list and
all error entries — exactly when all `n` probes have settled. -/
theorem raceRun_noSuccess {T : Type} (n g : Nat) (es : List (RaceEvent T))
    (hfind : es.find? RaceEvent.isSuccess = none)
    (hle : es.length ≤ n) :
    finalizeRace (runEvents n g ⟨[], [], none, none⟩ es) =
      ⟨[], errEntries es, none,
        if es.length = n ∧ 0 < es.length then
          some (lastTimeD es, ⟨[], errEntries es⟩)
        else none⟩ := by
  have hfail : ∀ e ∈ es, e.isSuccess = false := by
    intro e he
    have := List.find?_eq_none.mp hfind e he
    simpa using this
  rw [runEvents_noSuccess n g [] es hfail (by simpa using hle)]
  simp only [List.length_nil, Nat.zero_add, List.nil_append]
  by_cases hc : es.length = n ∧ 0 < es.length
  · rw [if_pos hc]; rfl
  · rw [if_neg hc]; rfl

theorem finalizeRace_some {T : Type} (rs : List T) (er : List (String × String))
    (dl : Option Nat) (p : Nat × WaitForSuccessResults T) :
    finalizeRace ⟨rs, er, dl, some p⟩ = ⟨rs, er, dl, some p⟩ := by
  cases dl <;> rfl

theorem finalizeRace_pending {T : Type} (rs : List T) (er : List (String × String))
    (d : Nat) : finalizeRace ⟨rs, er, some d, none⟩ =
      ⟨rs, er, some d, some (d, ⟨rs, er⟩)⟩ := rfl

/-- A race in which some probe succeeds, with `e0` the first success in
arrival order: the run of the sorted settlement events arms the one-shot
grace timer at deadline `e0.time + graceTime`; the promise resolves at the
last settlement if every event arrives by the deadline and all `n` probes
settle, and at the deadline otherwise; and the resolution snapshot contains
exactly the successes and failures that settled by the resolution time. -/
theorem raceRun_withSuccess {T : Type} (n g : Nat) (es : List (RaceEvent T))
    (e0 : RaceEvent T)
    (hsorted : es.Pairwise (fun a b => a.time ≤ b.time))
    (hle : es.length ≤ n)
    (hfind : es.find? RaceEvent.isSuccess = some e0) :
    finalizeRace (runEvents n g ⟨[], [], none, none⟩ es) =
      ⟨okResults es, errEntries es, some (e0.time + g),
        some ((if (es.all fun x => decide (x.time ≤ e0.time + g)) = true ∧ es.length = n
               then lastTimeD es else e0.time + g),
          ⟨okResults (es.takeWhile fun x => decide (x.time ≤ e0.time + g)),
           errEntries (es.takeWhile fun x => decide (x.time ≤ e0.time + g))⟩)⟩ := by
  obtain ⟨pre, post, rfl, hpre, hsucc⟩ := find?_split _ es e0 hfind
  obtain ⟨r0, hr0⟩ := outcome_of_isSuccess_true e0 hsucc
  rw [List.pairwise_append] at hsorted
  obtain ⟨hsp, hsc, hcross⟩ := hsorted
  have hsortpost := (List.pairwise_cons.mp hsc).2
  have hpred : ∀ x ∈ pre, x.time ≤ e0.time := fun x hx => hcross x hx e0 (by simp)
  have hlen : (pre ++ e0 :: post).length = pre.length + post.length + 1 := by
    simp; omega
  have hprelt : pre.length < n := by rw [hlen] at hle; omega
  have hEpre : (errEntries pre).length = pre.length :=
    length_errEntries_of_noSuccess pre hpre
  have hpreALL : ∀ x ∈ pre, (fun x => decide (x.time ≤ e0.time + g)) x = true := by
    intro x hx
    simpa using le_trans (hpred x hx) (Nat.le_add_right _ _)
  have hOKpre : okResults pre = [] := okResults_eq_nil_of_noSuccess pre hpre
  have hOK : okResults (pre ++ e0 :: post) = r0 :: okResults post := by
    rw [okResults_append, hOKpre, okResults_cons_ok e0 r0 post hr0]
    rfl
  have hERR : errEntries (pre ++ e0 :: post) = errEntries pre ++ errEntries post := by
    rw [errEntries_append, errEntries_cons_ok e0 r0 post hr0]
  have hALLsplit : ((pre ++ e0 :: post).all fun x => decide (x.time ≤ e0.time + g)) =
      (post.all fun x => decide (x.time ≤ e0.time + g)) := by
    rw [List.all_append, List.all_cons]
    have h1 : (pre.all fun x => decide (x.time ≤ e0.time + g)) = true :=
      List.all_eq_true.mpr hpreALL
    have h2 : decide (e0.time ≤ e0.time + g) = true := by simp
    rw [h1, h2]
    simp
  have hTWsplit : ((pre ++ e0 :: post).takeWhile fun x => decide (x.time ≤ e0.time + g)) =
      pre ++ e0 :: (post.takeWhile fun x => decide (x.time ≤ e0.time + g)) := by
    rw [takeWhile_append_of_all _ pre _ hpreALL,
      List.takeWhile_cons_of_pos (by simp)]
  rw [runEvents_append, runEvents_noSuccess n g [] pre hpre (by simpa using le_of_lt hprelt),
    if_neg (by simp; omega)]
  simp only [List.nil_append]
  rw [runEvents]
  have hstep : settleStep n g ⟨[], errEntries pre, none, none⟩ e0 =
      resolveIfDone n e0.time ⟨[r0], errEntries pre, some (e0.time + g), none⟩ := by
    rw [settleStep, show checkTimer ⟨[], errEntries pre, none, none⟩ e0.time =
      ⟨[], errEntries pre, none, none⟩ from rfl, recordSettle, hr0]
    rfl
  rw [hstep, resolveIfDone_pending]
  by_cases hn : pre.length + 1 = n
  · have hpost : post = [] := by
      refine List.length_eq_zero.mp ?_
      rw [hlen] at hle
      omega
    subst hpost
    rw [if_pos (by simp [hEpre]; omega), runEvents, finalizeRace_some]
    rw [hOK, hERR, hTWsplit]
    rw [if_pos ⟨by rw [hALLsplit]; rfl, by rw [hlen]; simpa using hn⟩]
    rw [lastTimeD_append_cons]
    simp [okResults_cons_ok e0 r0 [] hr0, errEntries_cons_ok e0 r0 [] hr0,
      okResults_nil, errEntries_nil, hOKpre,
      okResults_append, errEntries_append, lastTimeD]
  · have hle2 : ([r0] : List T).length + (errEntries pre).length + post.length ≤ n := by
      simp only [List.length_singleton, hEpre]
      rw [hlen] at hle
      omega
    rw [if_neg (by simp [hEpre]; omega),
      runEvents_postSuccess n g [r0] (errEntries pre) (e0.time + g) post (by simp)
        hsortpost hle2]
    by_cases hall : (post.all fun x => decide (x.time ≤ e0.time + g)) = true
    · have hallES : ((pre ++ e0 :: post).all fun x => decide (x.time ≤ e0.time + g)) =
          true := by rw [hALLsplit]; exact hall
      have hTWES : ((pre ++ e0 :: post).takeWhile fun x => decide (x.time ≤ e0.time + g)) =
          pre ++ e0 :: post :=
        takeWhile_eq_self_of_all _ _ (List.all_eq_true.mp hallES)
      rw [if_pos hall]
      cases post with
      | nil =>
        have hlenne : ¬ (((pre ++ e0 :: ([] : List (RaceEvent T))).all
              fun x => decide (x.time ≤ e0.time + g)) = true ∧
            (pre ++ e0 :: ([] : List (RaceEvent T))).length = n) := by
          intro hcontr
          apply hn
          have h2 := hcontr.2
          rw [hlen] at h2
          simpa using h2
        rw [if_neg (by simp), finalizeRace_pending, hOK, hERR, hTWES, hOK, hERR,
          if_neg hlenne]
        simp [okResults_nil, errEntries_nil]
      | cons f fs =>
        by_cases hsum : ([r0] : List T).length + (errEntries pre).length +
            (f :: fs).length = n
        · have hlesn : (pre ++ e0 :: f :: fs).length = n := by
            rw [hlen]
            simp only [List.length_singleton, hEpre] at hsum
            simp only [List.length_cons] at hsum ⊢
            omega
          rw [if_pos ⟨hsum, by simp⟩, finalizeRace_some, hOK, hERR, hTWES, hOK, hERR,
            if_pos ⟨hallES, hlesn⟩, lastTimeD_append_cons,
            lastTimeD_cons e0 (f :: fs) (by simp)]
          simp
        · have hlenne : ¬ (((pre ++ e0 :: f :: fs).all
                fun x => decide (x.time ≤ e0.time + g)) = true ∧
              (pre ++ e0 :: f :: fs).length = n) := by
            intro hcontr
            apply hsum
            have h2 := hcontr.2
            rw [hlen] at h2
            simp only [List.length_singleton, hEpre]
            simp only [List.length_cons] at h2 ⊢
            omega
          rw [if_neg (fun hc => hsum hc.1), finalizeRace_pending, hOK, hERR, hTWES,
            hOK, hERR, if_neg hlenne]
          simp
    · rw [if_neg hall, finalizeRace_some,
        if_neg (fun hc => hall (by rw [← hALLsplit]; exact hc.1)),
        hOK, hERR, hTWsplit, okResults_append, errEntries_append, hOKpre,
        okResults_cons_ok e0 r0 _ hr0, errEntries_cons_ok e0 r0 _ hr0]
      simp

/-! ## Glue: events of a probe list, validation, duplicate keys -/

theorem eventsOf_nil {T : Type} : eventsOf ([] : List (Option (Nat × Except String T))) [] = [] := rfl

theorem eventsOf_cons_some {T : Type} (t : Nat) (o : Except String T)
    (promises : List (Option (Nat × Except String T))) (k : String) (keys : List String) :
    eventsOf (some (t, o) :: promises) (k :: keys) =
      ⟨t, k, o⟩ :: eventsOf promises keys := rfl

theorem eventsOf_cons_none {T : Type}
    (promises : List (Option (Nat × Except String T))) (k : String) (keys : List String) :
    eventsOf (none :: promises) (k :: keys) = eventsOf promises keys := rfl

theorem eventsOf_length_le {T : Type} (promises : List (Option (Nat × Except String T)))
    (keys : List String) : (eventsOf promises keys).length ≤ promises.length := by
  calc (eventsOf promises keys).length ≤ (promises.zip keys).length :=
        List.length_filterMap_le _ _
    _ ≤ promises.length := by rw [List.length_zip]; exact Nat.min_le_left _ _

theorem eventsOf_all_some {T : Type} (promises : List (Option (Nat × Except String T)))
    (keys : List String) (hlen : promises.length = keys.length)
    (hsome : ∀ p ∈ promises, p.isSome) :
    (eventsOf promises keys).length = promises.length ∧
    (eventsOf promises keys).map RaceEvent.key = keys := by
  induction promises generalizing keys with
  | nil =>
    cases keys with
    | nil => exact ⟨rfl, rfl⟩
    | cons k ks => simp at hlen
  | cons p ps ih =>
    cases keys with
    | nil => simp at hlen
    | cons k ks =>
      cases p with
      | none => simpa using hsome none (by simp)
      | some pr =>
        obtain ⟨t, o⟩ := pr
        rw [eventsOf_cons_some]
        have h2 := ih ks (by simpa using hlen) fun x hx => hsome x (by simp [hx])
        exact ⟨by simpa using h2.1, by simpa using h2.2⟩

theorem waitForSuccess_run {T : Type} (promises : List (Option (Nat × Except String T)))
    (keys : List String) (g : Nat)
    (hlen : promises.length = keys.length)
    (hdup : hasDuplicateKeys keys = false) :
    waitForSuccess promises keys g = .ok (raceFinalState promises keys g).resolved := by
  rw [waitForSuccess, if_neg (fun hc => hc hlen), if_neg (by simp [hdup])]

theorem nodup_iff_indexOf (l : List String) :
    (∀ i (h : i < l.length), l.indexOf l[i] = i) ↔ l.Nodup := by
  induction l with
  | nil => simp
  | cons a l ih =>
    constructor
    · intro H
      rw [List.nodup_cons]
      have hanotin : a ∉ l := by
        intro hmem
        obtain ⟨j, hj, hja⟩ := List.mem_iff_getElem.mp hmem
        have h1 := H (j + 1) (by simpa using Nat.succ_lt_succ hj)
        rw [List.getElem_cons_succ, hja, List.indexOf_cons_self] at h1
        omega
      refine ⟨hanotin, ih.mp ?_⟩
      intro j hj
      have h1 := H (j + 1) (by simpa using Nat.succ_lt_succ hj)
      rw [List.getElem_cons_succ] at h1
      have hne : a ≠ l[j] := fun heq => hanotin (heq ▸ List.getElem_mem hj)
      rw [List.indexOf_cons_ne _ hne] at h1
      exact Nat.succ_injective h1
    · intro H i hi
      rw [List.nodup_cons] at H
      obtain ⟨hanotin, hnd⟩ := H
      cases i with
      | zero => simpa using List.indexOf_cons_self a l
      | succ j =>
        have hj : j < l.length := by simpa using hi
        rw [List.getElem_cons_succ]
        have hne : a ≠ l[j] := fun heq => hanotin (heq ▸ List.getElem_mem hj)
        rw [List.indexOf_cons_ne _ hne, ih.mpr hnd j hj]

theorem hasDuplicateKeys_eq_false_iff (keys : List String) :
    hasDuplicateKeys keys = false ↔ keys.Nodup := by
  rw [← nodup_iff_indexOf, hasDuplicateKeys, List.any_eq_false]
  constructor
  · intro H i hi
    have h1 := H i (List.mem_range.mpr hi)
    have hgd : keys.getD i "" = keys[i] := List.getD_eq_getElem _ _ hi
    rw [hgd] at h1
    simpa using h1
  · intro H x hx
    have hi := List.mem_range.mp hx
    have hgd : keys.getD x "" = keys[x] := List.getD_eq_getElem _ _ hi
    rw [hgd]
    simp [H x hi]

theorem mem_takeWhile {α : Type} (p : α → Bool) (l : List α) (x : α)
    (hx : x ∈ l.takeWhile p) : x ∈ l ∧ p x = true := by
  induction l with
  | nil => simp at hx
  | cons a l ih =>
    by_cases ha : p a = true
    · rw [List.takeWhile_cons_of_pos ha] at hx
      rcases List.mem_cons.mp hx with rfl | hx'
      · exact ⟨by simp, ha⟩
      · obtain ⟨h1, h2⟩ := ih hx'
        exact ⟨by simp [h1], h2⟩
    · rw [List.takeWhile_cons_of_neg (by simpa using ha)] at hx
      simp at hx

theorem eventsOf_mem {T : Type} (promises : List (Option (Nat × Except String T)))
    (keys : List String) (e : RaceEvent T) (he : e ∈ eventsOf promises keys) :
    some (e.time, e.outcome) ∈ promises ∧ e.key ∈ keys := by
  simp only [eventsOf, List.mem_filterMap] at he
  obtain ⟨pk, hpk, hf⟩ := he
  have hmem := List.of_mem_zip hpk
  cases hp : pk.1 with
  | none =>
    rw [hp, Option.map_none'] at hf
    exact Option.noConfusion hf
  | some so =>
    rw [hp] at hf
    simp only [Option.map_some', Option.some.injEq] at hf
    cases hf
    constructor
    · have h1 := hmem.1
      rw [hp] at h1
      exact h1
    · exact hmem.2

/-! ## Claims about the race selector -/

/-- C10: when the number of promises differs from the number of error keys,
`waitForSuccess` throws synchronously with the message
`Invalid errorKeys length`; the returned `Except.error` carries no partial
outcome — no probe is consulted (the race simulation is never entered). -/
theorem waitForSuccess_length_mismatch {T : Type}
    (promises : List (Option (Nat × Except String T))) (keys : List String)
    (g : Nat) (h : promises.length ≠ keys.length) :
    waitForSuccess promises keys g = .error "Invalid errorKeys length" := by
  rw [waitForSuccess, if_pos h]

/-- Closed witness for `waitForSuccess_length_mismatch`. -/
theorem waitForSuccess_length_mismatch_witness :
    waitForSuccess (T := Nat) [some (0, .ok 1)] [] 5 =
      .error "Invalid errorKeys length" :=
  waitForSuccess_length_mismatch [some (0, .ok 1)] [] 5 (by decide)

/-- C8: a duplicate key in the (length-matching) key list makes
`waitForSuccess` throw synchronously with the duplicate-key message — a
configuration error distinct from any runtime probe failure; the race
simulation is never entered, so no probe is started or observed. -/
theorem waitForSuccess_duplicate_keys {T : Type}
    (promises : List (Option (Nat × Except String T))) (keys : List String)
    (g : Nat) (hlen : promises.length = keys.length) (hdup : ¬ keys.Nodup) :
    waitForSuccess promises keys g =
      .error "waitForSuccess: duplicate relay URL keys, aborting" := by
  have h1 : hasDuplicateKeys keys = true := by
    cases h : hasDuplicateKeys keys
    · exact absurd ((hasDuplicateKeys_eq_false_iff keys).mp h) hdup
    · rfl
  rw [waitForSuccess, if_neg (fun hc => hc hlen), if_pos (by simp [h1])]

/-- Closed witness for `waitForSuccess_duplicate_keys`. -/
theorem waitForSuccess_duplicate_keys_witness :
    waitForSuccess (T := Nat) [none, none] ["a", "a"] 0 =
      .error "waitForSuccess: duplicate relay URL keys, aborting" :=
  waitForSuccess_duplicate_keys [none, none] ["a", "a"] 0 (by decide) (by decide)

/-- C4 counterexample: for the empty input, `waitForSuccess` does NOT fail
with a configuration error — both validation checks pass — and the promise
never settles: the result is `.ok none` (no resolution ever), not an
`Except.error` and not a resolution with an empty outcome. -/
theorem waitForSuccess_empty_counterexample :
    waitForSuccess (T := Nat) [] [] 100 = .ok none := rfl

/-- C4 amended: for the empty input (zero probes, zero keys),
`waitForSuccess` passes validation without any configuration error and
returns a promise that never settles — it neither rejects nor resolves
(with an empty outcome or otherwise); the race hangs forever. -/
theorem waitForSuccess_empty_hangs (T : Type) (g : Nat) :
    waitForSuccess (T := T) [] [] g = .ok none := rfl

/-- C5: when every one of the `N ≥ 1` probes settles with a failure, the race
resolves (never rejects) with an empty results sequence and an errors mapping
holding exactly `N` entries whose keys are exactly the input keys; and it
resolves only once every probe has settled (the resolution time is at least
every settlement time). -/
theorem waitForSuccess_allFail {T : Type}
    (promises : List (Option (Nat × Except String T))) (keys : List String) (g : Nat)
    (hlen : promises.length = keys.length)
    (hnodup : keys.Nodup)
    (hN : 0 < promises.length)
    (hfail : ∀ p ∈ promises, ∃ t msg, p = some (t, Except.error msg)) :
    ∃ rt snap,
      waitForSuccess promises keys g = .ok (some (rt, snap)) ∧
      snap.results = [] ∧
      snap.errors.length = promises.length ∧
      (snap.errors.map Prod.fst).Perm keys ∧
      (∀ e ∈ eventsOf promises keys, e.time ≤ rt) := by
  have hsome : ∀ p ∈ promises, p.isSome := by
    intro p hp
    obtain ⟨t, msg, rfl⟩ := hfail p hp
    rfl
  obtain ⟨hevlen, hevkeys⟩ := eventsOf_all_some promises keys hlen hsome
  set st := sortByTime (eventsOf promises keys) with hst
  have hstperm := sortByTime_perm (eventsOf promises keys)
  have hstsorted := sortByTime_pairwise (eventsOf promises keys)
  have hstlen : st.length = promises.length := by rw [hst, sortByTime_length, hevlen]
  have hstfail : ∀ e ∈ st, e.isSuccess = false := by
    intro e he
    have he2 : e ∈ eventsOf promises keys := (sortByTime_mem _ _).mp he
    obtain ⟨hmem, -⟩ := eventsOf_mem promises keys e he2
    obtain ⟨t, msg, heq⟩ := hfail _ hmem
    have houtcome : e.outcome = Except.error msg := by
      injection heq with h1
      exact congrArg Prod.snd h1
    simp [RaceEvent.isSuccess, houtcome]
  have hfind : st.find? RaceEvent.isSuccess = none := by
    apply List.find?_eq_none.mpr
    intro x hx
    simp [hstfail x hx]
  have hrun := raceRun_noSuccess promises.length g st hfind (le_of_eq hstlen)
  have hrfs : raceFinalState promises keys g =
      finalizeRace (runEvents promises.length g ⟨[], [], none, none⟩ st) := rfl
  refine ⟨lastTimeD st, ⟨[], errEntries st⟩, ?_, rfl, ?_, ?_, ?_⟩
  · rw [waitForSuccess_run promises keys g hlen
      ((hasDuplicateKeys_eq_false_iff keys).mpr hnodup), hrfs, hrun,
      if_pos ⟨hstlen, by omega⟩]
  · rw [length_errEntries_of_noSuccess st hstfail, hstlen]
  · have h1 : (errEntries st).map Prod.fst = st.map RaceEvent.key :=
      errEntries_map_fst_of_noSuccess st hstfail
    have h2 : (st.map RaceEvent.key).Perm ((eventsOf promises keys).map RaceEvent.key) :=
      hstperm.map _
    rw [hevkeys] at h2
    rw [h1]
    exact h2
  · intro e he
    exact time_le_lastTimeD st hstsorted e ((sortByTime_mem _ _).mpr he)

/-- Closed witness for `waitForSuccess_allFail`. -/
theorem waitForSuccess_allFail_witness :
    ∃ (rt : Nat) (snap : WaitForSuccessResults Nat),
      waitForSuccess [some (7, .error "x"), some (3, .error "y")] ["a", "b"] 10 =
        .ok (some (rt, snap)) ∧
      snap.results = [] ∧
      snap.errors.length =
        ([some (7, .error "x"), some (3, .error "y")] :
          List (Option (Nat × Except String Nat))).length ∧
      (snap.errors.map Prod.fst).Perm ["a", "b"] ∧
      (∀ e ∈ eventsOf ([some (7, .error "x"), some (3, .error "y")] :
          List (Option (Nat × Except String Nat))) ["a", "b"],
        e.time ≤ rt) :=
  waitForSuccess_allFail [some (7, .error "x"), some (3, .error "y")] ["a", "b"] 10
    rfl (by decide) (by decide)
    (by
      intro p hp
      rcases List.mem_cons.mp hp with rfl | hp2
      · exact ⟨7, "x", rfl⟩
      rcases List.mem_cons.mp hp2 with rfl | hp3
      · exact ⟨3, "y", rfl⟩
      · simp at hp3)

/-- C6: two invariants of the race outcome.  (1) Once the race fully settles
(every probe settles), the accumulated results and errors partition the
probes: `|results| + |errors| = N`.  (2) At the moment the race is reported
finished, the errors mapping handed to the caller holds entries only for
probes that had already completed by the resolution time: every entry stems
from a settlement event no later than the resolution time. -/
theorem waitForSuccess_invariants {T : Type} :
    (∀ (promises : List (Option (Nat × Except String T))) (keys : List String) (g : Nat),
      promises.length = keys.length → keys.Nodup → (∀ p ∈ promises, p.isSome) →
      (raceFinalState promises keys g).results.length +
        (raceFinalState promises keys g).errors.length = promises.length) ∧
    (∀ (promises : List (Option (Nat × Except String T))) (keys : List String)
       (g rt : Nat) (snap : WaitForSuccessResults T),
      promises.length = keys.length → keys.Nodup →
      waitForSuccess promises keys g = .ok (some (rt, snap)) →
      ∀ kv ∈ snap.errors, ∃ e ∈ eventsOf promises keys,
        e.key = kv.1 ∧ e.outcome = .error kv.2 ∧ e.time ≤ rt) := by
  constructor
  · intro promises keys g hlen hnodup hsome
    have hstlen : (sortByTime (eventsOf promises keys)).length = promises.length := by
      rw [sortByTime_length, (eventsOf_all_some promises keys hlen hsome).1]
    have hrfs : raceFinalState promises keys g =
        finalizeRace (runEvents promises.length g ⟨[], [], none, none⟩
          (sortByTime (eventsOf promises keys))) := rfl
    cases hfind : (sortByTime (eventsOf promises keys)).find? RaceEvent.isSuccess with
    | none =>
      have hfail : ∀ e ∈ sortByTime (eventsOf promises keys), e.isSuccess = false := by
        intro e he
        have h2 := List.find?_eq_none.mp hfind e he
        simpa using h2
      rw [hrfs, raceRun_noSuccess promises.length g _ hfind (le_of_eq hstlen)]
      show (0 : Nat) + (errEntries (sortByTime (eventsOf promises keys))).length =
        promises.length
      rw [length_errEntries_of_noSuccess _ hfail, hstlen]
      omega
    | some e0 =>
      rw [hrfs, raceRun_withSuccess promises.length g _ e0
        (sortByTime_pairwise _) (le_of_eq hstlen) hfind]
      show (okResults (sortByTime (eventsOf promises keys))).length +
        (errEntries (sortByTime (eventsOf promises keys))).length = promises.length
      rw [length_okResults_add_errEntries, hstlen]
  · intro promises keys g rt snap hlen hnodup hres kv hkv
    rw [waitForSuccess_run promises keys g hlen
      ((hasDuplicateKeys_eq_false_iff keys).mpr hnodup)] at hres
    have hres2 : (raceFinalState promises keys g).resolved = some (rt, snap) := by
      injection hres
    have hle : (sortByTime (eventsOf promises keys)).length ≤ promises.length := by
      rw [sortByTime_length]
      exact eventsOf_length_le promises keys
    have hrfs : raceFinalState promises keys g =
        finalizeRace (runEvents promises.length g ⟨[], [], none, none⟩
          (sortByTime (eventsOf promises keys))) := rfl
    have hsorted := sortByTime_pairwise (eventsOf promises keys)
    cases hfind : (sortByTime (eventsOf promises keys)).find? RaceEvent.isSuccess with
    | none =>
      rw [hrfs, raceRun_noSuccess promises.length g _ hfind hle] at hres2
      show ∃ e ∈ eventsOf promises keys, e.key = kv.1 ∧ e.outcome = .error kv.2 ∧
        e.time ≤ rt
      have hres3 : (if (sortByTime (eventsOf promises keys)).length = promises.length ∧
            0 < (sortByTime (eventsOf promises keys)).length then
          some (lastTimeD (sortByTime (eventsOf promises keys)),
            (⟨[], errEntries (sortByTime (eventsOf promises keys))⟩ :
              WaitForSuccessResults T))
        else none) = some (rt, snap) := hres2
      split at hres3
      · obtain ⟨h1, h2⟩ := Prod.mk.inj (Option.some.inj hres3)
        subst h1
        subst h2
        obtain ⟨e, he, hek, heo⟩ := errEntries_mem _ kv hkv
        refine ⟨e, (sortByTime_mem _ _).mp he, hek, heo, ?_⟩
        exact time_le_lastTimeD _ hsorted e he
      · exact Option.noConfusion hres3
    | some e0 =>
      rw [hrfs, raceRun_withSuccess promises.length g _ e0 hsorted hle hfind] at hres2
      have hres3 : (some ((if ((sortByTime (eventsOf promises keys)).all
              fun x => decide (x.time ≤ e0.time + g)) = true ∧
              (sortByTime (eventsOf promises keys)).length = promises.length
            then lastTimeD (sortByTime (eventsOf promises keys)) else e0.time + g),
          (⟨okResults ((sortByTime (eventsOf promises keys)).takeWhile
              fun x => decide (x.time ≤ e0.time + g)),
            errEntries ((sortByTime (eventsOf promises keys)).takeWhile
              fun x => decide (x.time ≤ e0.time + g))⟩ : WaitForSuccessResults T)) :
          Option (Nat × WaitForSuccessResults T)) = some (rt, snap) := hres2
      obtain ⟨h1, h2⟩ := Prod.mk.inj (Option.some.inj hres3)
      subst h1
      subst h2
      obtain ⟨e, he, hek, heo⟩ := errEntries_mem _ kv hkv
      obtain ⟨hest, hetime⟩ := mem_takeWhile _ _ e he
      refine ⟨e, (sortByTime_mem _ _).mp hest, hek, heo, ?_⟩
      split
      · exact time_le_lastTimeD _ hsorted e hest
      · simpa using hetime

/-- Closed witness for `waitForSuccess_invariants`. -/
theorem waitForSuccess_invariants_witness :
    ((raceFinalState (T := Nat) [some (0, .ok 1), some (3, .error "x")]
        ["a", "b"] 10).results.length +
      (raceFinalState (T := Nat) [some (0, .ok 1), some (3, .error "x")]
        ["a", "b"] 10).errors.length =
      ([some (0, .ok 1), some (3, .error "x")] :
        List (Option (Nat × Except String Nat))).length) ∧
    (∀ kv ∈ (⟨[1], [("b", "x")]⟩ : WaitForSuccessResults Nat).errors,
      ∃ e ∈ eventsOf ([some (0, .ok 1), some (3, .error "x")] :
          List (Option (Nat × Except String Nat))) ["a", "b"],
        e.key = kv.1 ∧ e.outcome = .error kv.2 ∧ e.time ≤ 3) :=
  ⟨(waitForSuccess_invariants (T := Nat)).1
      [some (0, .ok 1), some (3, .error "x")] ["a", "b"] 10 rfl
      (by decide) (by decide),
   (waitForSuccess_invariants (T := Nat)).2
      [some (0, .ok 1), some (3, .error "x")] ["a", "b"] 10 3 ⟨[1], [("b", "x")]⟩ rfl
      (by decide) rfl⟩

theorem errEntries_eq_nil_of_allSuccess {T : Type} (es : List (RaceEvent T))
    (h : ∀ e ∈ es, e.isSuccess = true) : errEntries es = [] := by
  induction es with
  | nil => rfl
  | cons e es ih =>
    obtain ⟨r, hr⟩ := outcome_of_isSuccess_true e (h e (by simp))
    rw [errEntries_cons_ok e r es hr]
    exact ih fun x hx => h x (by simp [hx])

/-- C7 counterexample: two probes that both succeed (at times 0 and 20, with
grace 10) resolve with a results sequence of length 1, not length `N = 2`:
the second success arrives after the grace timer fired and is excluded, so
"for all probes that all succeed, the results sequence has length N" is
false as stated. -/
theorem waitForSuccess_order_counterexample :
    waitForSuccess (T := Nat) [some (0, .ok 1), some (20, .ok 2)] ["a", "b"] 10 =
      .ok (some (10, ⟨[1], []⟩)) ∧
    (WaitForSuccessResults.mk [1] ([] : List (String × String))).results.length ≠
      ([some (0, .ok 1), some (20, .ok 2)] :
        List (Option (Nat × Except String Nat))).length :=
  ⟨rfl, by decide⟩

/-- C7 amended: (1) in every race, the resolved results sequence consists of
exactly the successes that completed by the resolution time, in strict
completion (arrival) order — the first success at index 0, and so on.
(2) For all `N ≥ 1` probes that all succeed and all arrive within one grace
duration of each other (in particular, instantly), the race resolves with a
results sequence of length `N` in arrival order and an empty errors mapping.
-/
theorem waitForSuccess_completion_order {T : Type} :
    (∀ (promises : List (Option (Nat × Except String T))) (keys : List String)
       (g rt : Nat) (snap : WaitForSuccessResults T),
      promises.length = keys.length → keys.Nodup →
      waitForSuccess promises keys g = .ok (some (rt, snap)) →
      snap.results = okResults ((sortByTime (eventsOf promises keys)).takeWhile
        fun e => decide (e.time ≤ rt))) ∧
    (∀ (promises : List (Option (Nat × Except String T))) (keys : List String) (g : Nat),
      promises.length = keys.length → keys.Nodup → 0 < promises.length →
      (∀ p ∈ promises, ∃ t r, p = some (t, Except.ok r)) →
      (eventsOf promises keys).Pairwise (fun a b => a.time ≤ b.time) →
      (∀ e1 ∈ eventsOf promises keys, ∀ e2 ∈ eventsOf promises keys,
        e2.time ≤ e1.time + g) →
      waitForSuccess promises keys g =
        .ok (some (lastTimeD (eventsOf promises keys),
          ⟨okResults (eventsOf promises keys), []⟩)) ∧
      (okResults (eventsOf promises keys)).length = promises.length) := by
  constructor
  · intro promises keys g rt snap hlen hnodup hres
    rw [waitForSuccess_run promises keys g hlen
      ((hasDuplicateKeys_eq_false_iff keys).mpr hnodup)] at hres
    have hres2 : (raceFinalState promises keys g).resolved = some (rt, snap) := by
      injection hres
    have hle : (sortByTime (eventsOf promises keys)).length ≤ promises.length := by
      rw [sortByTime_length]
      exact eventsOf_length_le promises keys
    have hrfs : raceFinalState promises keys g =
        finalizeRace (runEvents promises.length g ⟨[], [], none, none⟩
          (sortByTime (eventsOf promises keys))) := rfl
    have hsorted := sortByTime_pairwise (eventsOf promises keys)
    cases hfind : (sortByTime (eventsOf promises keys)).find? RaceEvent.isSuccess with
    | none =>
      rw [hrfs, raceRun_noSuccess promises.length g _ hfind hle] at hres2
      have hres3 : (if (sortByTime (eventsOf promises keys)).length = promises.length ∧
            0 < (sortByTime (eventsOf promises keys)).length then
          some (lastTimeD (sortByTime (eventsOf promises keys)),
            (⟨[], errEntries (sortByTime (eventsOf promises keys))⟩ :
              WaitForSuccessResults T))
        else none) = some (rt, snap) := hres2
      split at hres3
      · obtain ⟨h1, h2⟩ := Prod.mk.inj (Option.some.inj hres3)
        subst h1
        subst h2
        have hfail : ∀ e ∈ (sortByTime (eventsOf promises keys)).takeWhile
            (fun e => decide (e.time ≤ lastTimeD (sortByTime (eventsOf promises keys)))),
            e.isSuccess = false := by
          intro e he
          have h3 := (mem_takeWhile _ _ e he).1
          have h4 := List.find?_eq_none.mp hfind e h3
          simpa using h4
        exact (okResults_eq_nil_of_noSuccess _ hfail).symm
      · exact Option.noConfusion hres3
    | some e0 =>
      rw [hrfs, raceRun_withSuccess promises.length g _ e0 hsorted hle hfind] at hres2
      obtain ⟨h1, h2⟩ := Prod.mk.inj (Option.some.inj hres2)
      subst h1
      subst h2
      by_cases hcond : ((sortByTime (eventsOf promises keys)).all
          fun x => decide (x.time ≤ e0.time + g)) = true ∧
          (sortByTime (eventsOf promises keys)).length = promises.length
      · rw [if_pos hcond]
        have hTW1 : ((sortByTime (eventsOf promises keys)).takeWhile
            fun x => decide (x.time ≤ e0.time + g)) =
            sortByTime (eventsOf promises keys) :=
          takeWhile_eq_self_of_all _ _ (List.all_eq_true.mp hcond.1)
        have hTW2 : ((sortByTime (eventsOf promises keys)).takeWhile
            fun e => decide (e.time ≤ lastTimeD (sortByTime (eventsOf promises keys)))) =
            sortByTime (eventsOf promises keys) := by
          refine takeWhile_eq_self_of_all _ _ ?_
          intro x hx
          simpa using time_le_lastTimeD _ hsorted x hx
        rw [hTW1, hTW2]
      · rw [if_neg hcond]
  · intro promises keys g hlen hnodup hN hallok hsortedev hspread
    have hsome : ∀ p ∈ promises, p.isSome := by
      intro p hp
      obtain ⟨t, r, rfl⟩ := hallok p hp
      rfl
    obtain ⟨hevlen, hevkeys⟩ := eventsOf_all_some promises keys hlen hsome
    have hst : sortByTime (eventsOf promises keys) = eventsOf promises keys :=
      sortByTime_eq_self _ hsortedev
    have hallsucc : ∀ e ∈ eventsOf promises keys, e.isSuccess = true := by
      intro e he
      obtain ⟨hmem, -⟩ := eventsOf_mem promises keys e he
      obtain ⟨t, r, heq⟩ := hallok _ hmem
      have houtcome : e.outcome = Except.ok r := by
        injection heq with h1
        exact congrArg Prod.snd h1
      simp [RaceEvent.isSuccess, houtcome]
    have hne : eventsOf promises keys ≠ [] := by
      intro hnil
      rw [hnil] at hevlen
      simp at hevlen
      omega
    obtain ⟨e, rest, hcons⟩ := List.exists_cons_of_ne_nil hne
    have hesucc : e.isSuccess = true := hallsucc e (by rw [hcons]; simp)
    have hfind : (eventsOf promises keys).find? RaceEvent.isSuccess = some e := by
      rw [hcons]
      simp [List.find?, hesucc]
    have hallle : ((eventsOf promises keys).all
        fun x => decide (x.time ≤ e.time + g)) = true := by
      refine List.all_eq_true.mpr ?_
      intro x hx
      simpa using hspread e (by rw [hcons]; simp) x hx
    have herrnil : errEntries (eventsOf promises keys) = [] :=
      errEntries_eq_nil_of_allSuccess _ hallsucc
    have hrun := raceRun_withSuccess promises.length g (eventsOf promises keys) e
      hsortedev (le_of_eq hevlen) hfind
    have hrfs : raceFinalState promises keys g =
        finalizeRace (runEvents promises.length g ⟨[], [], none, none⟩
          (sortByTime (eventsOf promises keys))) := rfl
    constructor
    · rw [waitForSuccess_run promises keys g hlen
        ((hasDuplicateKeys_eq_false_iff keys).mpr hnodup), hrfs, hst, hrun,
        if_pos ⟨hallle, hevlen⟩,
        takeWhile_eq_self_of_all _ _ (List.all_eq_true.mp hallle), herrnil]
    · have hsum := length_okResults_add_errEntries (eventsOf promises keys)
      rw [herrnil] at hsum
      simpa [hevlen] using hsum

/-- Closed witness for `waitForSuccess_completion_order`. -/
theorem waitForSuccess_completion_order_witness :
    ((⟨[1, 2], []⟩ : WaitForSuccessResults Nat).results =
      okResults ((sortByTime (eventsOf ([some (0, .ok 1), some (5, .ok 2)] :
          List (Option (Nat × Except String Nat))) ["a", "b"])).takeWhile
        fun e => decide (e.time ≤ 5))) ∧
    (waitForSuccess ([some (0, .ok 1), some (5, .ok 2)] :
        List (Option (Nat × Except String Nat))) ["a", "b"] 10 =
      .ok (some (lastTimeD (eventsOf ([some (0, .ok 1), some (5, .ok 2)] :
          List (Option (Nat × Except String Nat))) ["a", "b"]),
        ⟨okResults (eventsOf ([some (0, .ok 1), some (5, .ok 2)] :
          List (Option (Nat × Except String Nat))) ["a", "b"]), []⟩)) ∧
      (okResults (eventsOf ([some (0, .ok 1), some (5, .ok 2)] :
          List (Option (Nat × Except String Nat))) ["a", "b"])).length = 2) :=
  ⟨(waitForSuccess_completion_order (T := Nat)).1
      [some (0, .ok 1), some (5, .ok 2)] ["a", "b"] 10 5 ⟨[1, 2], []⟩ rfl
      (by decide) rfl,
   (waitForSuccess_completion_order (T := Nat)).2
      [some (0, .ok 1), some (5, .ok 2)] ["a", "b"] 10 rfl (by decide) (by decide)
      (by
        intro p hp
        rcases List.mem_cons.mp hp with rfl | hp2
        · exact ⟨0, 1, rfl⟩
        rcases List.mem_cons.mp hp2 with rfl | hp3
        · exact ⟨5, 2, rfl⟩
        · simp at hp3)
      (by decide)
      (by decide)⟩

/-- C3: the grace period.  (1) In every race whose first success (in arrival
order) is `e0`, the one-shot grace timer is armed with deadline
`e0.time + graceTime`, and when every probe settles the race resolves at the
earlier of the timer deadline and the last settlement time.  (2) A second
success arriving at `t0 + grace/2` is included in the resolved results.
(3) A second success arriving at `t0 + 2*grace` is excluded from the
resolved outcome, and the call still resolves normally (no crash). -/
theorem waitForSuccess_gracePeriod {T : Type} :
    (∀ (promises : List (Option (Nat × Except String T))) (keys : List String)
       (g : Nat) (e0 : RaceEvent T),
      promises.length = keys.length → keys.Nodup →
      (sortByTime (eventsOf promises keys)).find? RaceEvent.isSuccess = some e0 →
      (raceFinalState promises keys g).deadline = some (e0.time + g) ∧
      ((∀ p ∈ promises, p.isSome) →
        ∃ snap, waitForSuccess promises keys g =
          .ok (some (min (e0.time + g)
            (lastTimeD (sortByTime (eventsOf promises keys))), snap)))) ∧
    (∀ (t0 g : Nat) (a b : T) (k1 k2 : String), k1 ≠ k2 →
      waitForSuccess [some (t0, .ok a), some (t0 + g / 2, .ok b)] [k1, k2] g =
        .ok (some (t0 + g / 2, ⟨[a, b], []⟩))) ∧
    (∀ (t0 g : Nat) (a b : T) (k1 k2 : String), k1 ≠ k2 → 0 < g →
      waitForSuccess [some (t0, .ok a), some (t0 + 2 * g, .ok b)] [k1, k2] g =
        .ok (some (t0 + g, ⟨[a], []⟩))) := by
  refine ⟨?_, ?_, ?_⟩
  · intro promises keys g e0 hlen hnodup hfind
    have hle : (sortByTime (eventsOf promises keys)).length ≤ promises.length := by
      rw [sortByTime_length]
      exact eventsOf_length_le promises keys
    have hsorted := sortByTime_pairwise (eventsOf promises keys)
    have hrfs : raceFinalState promises keys g =
        finalizeRace (runEvents promises.length g ⟨[], [], none, none⟩
          (sortByTime (eventsOf promises keys))) := rfl
    have hrun := raceRun_withSuccess promises.length g _ e0 hsorted hle hfind
    constructor
    · rw [hrfs, hrun]
    · intro hsome
      have hstlen : (sortByTime (eventsOf promises keys)).length = promises.length := by
        rw [sortByTime_length, (eventsOf_all_some promises keys hlen hsome).1]
      have hstne : sortByTime (eventsOf promises keys) ≠ [] :=
        List.ne_nil_of_mem (List.mem_of_find?_eq_some hfind)
      rw [waitForSuccess_run promises keys g hlen
        ((hasDuplicateKeys_eq_false_iff keys).mpr hnodup), hrfs, hrun]
      by_cases hld : lastTimeD (sortByTime (eventsOf promises keys)) ≤ e0.time + g
      · have hall : ((sortByTime (eventsOf promises keys)).all
            fun x => decide (x.time ≤ e0.time + g)) = true := by
          refine List.all_eq_true.mpr ?_
          intro x hx
          simpa using le_trans (time_le_lastTimeD _ hsorted x hx) hld
        refine ⟨⟨okResults ((sortByTime (eventsOf promises keys)).takeWhile
            fun x => decide (x.time ≤ e0.time + g)),
          errEntries ((sortByTime (eventsOf promises keys)).takeWhile
            fun x => decide (x.time ≤ e0.time + g))⟩, ?_⟩
        rw [if_pos ⟨hall, hstlen⟩, min_eq_right hld]
      · have hnall : ¬ (((sortByTime (eventsOf promises keys)).all
            fun x => decide (x.time ≤ e0.time + g)) = true ∧
            (sortByTime (eventsOf promises keys)).length = promises.length) := by
          intro hcontr
          apply hld
          obtain ⟨x, hx, hlt⟩ := lastTimeD_mem _ hstne
          rw [hlt]
          simpa using List.all_eq_true.mp hcontr.1 x hx
        refine ⟨⟨okResults ((sortByTime (eventsOf promises keys)).takeWhile
            fun x => decide (x.time ≤ e0.time + g)),
          errEntries ((sortByTime (eventsOf promises keys)).takeWhile
            fun x => decide (x.time ≤ e0.time + g))⟩, ?_⟩
        rw [if_neg hnall, min_eq_left (le_of_not_ge hld)]
  · intro t0 g a b k1 k2 hk
    have hnodup : ([k1, k2] : List String).Nodup := by simp [hk]
    have hsorted : ([⟨t0, k1, .ok a⟩, ⟨t0 + g / 2, k2, .ok b⟩] :
        List (RaceEvent T)).Pairwise (fun x y => x.time ≤ y.time) := by
      refine List.Pairwise.cons ?_
        (List.Pairwise.cons (fun y hy => by simp at hy) List.Pairwise.nil)
      intro y hy
      rcases List.mem_cons.mp hy with rfl | hy2
      · simp
      · simp at hy2
    have hev : eventsOf [some (t0, .ok a), some (t0 + g / 2, .ok b)] [k1, k2] =
        [⟨t0, k1, .ok a⟩, ⟨t0 + g / 2, k2, .ok b⟩] := rfl
    have hst : sortByTime (eventsOf
        ([some (t0, .ok a), some (t0 + g / 2, .ok b)] :
          List (Option (Nat × Except String T))) [k1, k2]) =
        [⟨t0, k1, .ok a⟩, ⟨t0 + g / 2, k2, .ok b⟩] := by
      rw [hev]
      exact sortByTime_eq_self _ hsorted
    have hfind : (([⟨t0, k1, .ok a⟩, ⟨t0 + g / 2, k2, .ok b⟩] :
        List (RaceEvent T)).find? RaceEvent.isSuccess) = some ⟨t0, k1, .ok a⟩ := rfl
    have hrun := raceRun_withSuccess 2 g
      [⟨t0, k1, .ok a⟩, ⟨t0 + g / 2, k2, .ok b⟩] ⟨t0, k1, .ok a⟩
      hsorted (by simp) hfind
    have hall : (([⟨t0, k1, .ok a⟩, ⟨t0 + g / 2, k2, .ok b⟩] :
        List (RaceEvent T)).all fun x => decide (x.time ≤ t0 + g)) = true := by
      have hg2 : g / 2 ≤ g := Nat.div_le_self g 2
      simp only [List.all_cons, List.all_nil, Bool.and_true]
      refine (Bool.and_eq_true _ _).mpr ⟨by simp, by simp; omega⟩
    rw [waitForSuccess_run _ _ g rfl
      ((hasDuplicateKeys_eq_false_iff [k1, k2]).mpr hnodup)]
    show Except.ok (finalizeRace (runEvents 2 g ⟨[], [], none, none⟩
      (sortByTime (eventsOf [some (t0, .ok a), some (t0 + g / 2, .ok b)]
        [k1, k2])))).resolved = _
    rw [hst, hrun, if_pos ⟨hall, rfl⟩,
      takeWhile_eq_self_of_all _ _ (List.all_eq_true.mp hall)]
    rfl
  · intro t0 g a b k1 k2 hk hg
    have hnodup : ([k1, k2] : List String).Nodup := by simp [hk]
    have hsorted : ([⟨t0, k1, .ok a⟩, ⟨t0 + 2 * g, k2, .ok b⟩] :
        List (RaceEvent T)).Pairwise (fun x y => x.time ≤ y.time) := by
      refine List.Pairwise.cons ?_
        (List.Pairwise.cons (fun y hy => by simp at hy) List.Pairwise.nil)
      intro y hy
      rcases List.mem_cons.mp hy with rfl | hy2
      · simp
      · simp at hy2
    have hev : eventsOf [some (t0, .ok a), some (t0 + 2 * g, .ok b)] [k1, k2] =
        [⟨t0, k1, .ok a⟩, ⟨t0 + 2 * g, k2, .ok b⟩] := rfl
    have hst : sortByTime (eventsOf
        ([some (t0, .ok a), some (t0 + 2 * g, .ok b)] :
          List (Option (Nat × Except String T))) [k1, k2]) =
        [⟨t0, k1, .ok a⟩, ⟨t0 + 2 * g, k2, .ok b⟩] := by
      rw [hev]
      exact sortByTime_eq_self _ hsorted
    have hfind : (([⟨t0, k1, .ok a⟩, ⟨t0 + 2 * g, k2, .ok b⟩] :
        List (RaceEvent T)).find? RaceEvent.isSuccess) = some ⟨t0, k1, .ok a⟩ := rfl
    have hrun := raceRun_withSuccess 2 g
      [⟨t0, k1, .ok a⟩, ⟨t0 + 2 * g, k2, .ok b⟩] ⟨t0, k1, .ok a⟩
      hsorted (by simp) hfind
    have hnall : ¬ ((([⟨t0, k1, .ok a⟩, ⟨t0 + 2 * g, k2, .ok b⟩] :
        List (RaceEvent T)).all fun x => decide (x.time ≤ t0 + g)) = true ∧
        ([⟨t0, k1, .ok a⟩, ⟨t0 + 2 * g, k2, .ok b⟩] :
          List (RaceEvent T)).length = 2) := by
      intro hcontr
      have h2 := List.all_eq_true.mp hcontr.1 ⟨t0 + 2 * g, k2, .ok b⟩ (by simp)
      simp at h2
      omega
    have hTW : (([⟨t0, k1, .ok a⟩, ⟨t0 + 2 * g, k2, .ok b⟩] :
        List (RaceEvent T)).takeWhile fun x => decide (x.time ≤ t0 + g)) =
        [⟨t0, k1, .ok a⟩] := by
      rw [List.takeWhile_cons_of_pos (by simp),
        List.takeWhile_cons_of_neg (by simp; omega)]
    rw [waitForSuccess_run _ _ g rfl
      ((hasDuplicateKeys_eq_false_iff [k1, k2]).mpr hnodup)]
    show Except.ok (finalizeRace (runEvents 2 g ⟨[], [], none, none⟩
      (sortByTime (eventsOf [some (t0, .ok a), some (t0 + 2 * g, .ok b)]
        [k1, k2])))).resolved = _
    rw [hst, hrun, if_neg hnall, hTW]
    rfl

/-- Closed witness for `waitForSuccess_gracePeriod`. -/
theorem waitForSuccess_gracePeriod_witness :
    (waitForSuccess (T := Nat) [some (0, .ok 1), some (0 + 4 / 2, .ok 2)]
        ["a", "b"] 4 = .ok (some (0 + 4 / 2, ⟨[1, 2], []⟩))) ∧
    (waitForSuccess (T := Nat) [some (0, .ok 1), some (0 + 2 * 4, .ok 2)]
        ["a", "b"] 4 = .ok (some (0 + 4, ⟨[1], []⟩))) ∧
    ((raceFinalState (T := Nat) [some (0, .ok 1), some (2, .ok 2)]
        ["a", "b"] 4).deadline = some ((⟨0, "a", .ok 1⟩ : RaceEvent Nat).time + 4)) :=
  ⟨(waitForSuccess_gracePeriod (T := Nat)).2.1 0 4 1 2 "a" "b" (by decide),
   (waitForSuccess_gracePeriod (T := Nat)).2.2 0 4 1 2 "a" "b" (by decide) (by decide),
   ((waitForSuccess_gracePeriod (T := Nat)).1 [some (0, .ok 1), some (2, .ok 2)]
      ["a", "b"] 4 ⟨0, "a", .ok 1⟩ rfl (by decide) rfl).1⟩

/-! ## PriceOracleFetcher: `GasPriceFetcher.getGasPrice`

Modelled from the spec: the implementation file `GasPriceFetcher.ts` is not
under the sources (only its test suite is), so `getJsonElement` and
`getGasPrice` below are modelled from the specification of the
PriceOracleFetcher (response parsed as a keyed/array tree; a path of typed
segments — property name or array index — descends the tree; absence of
data is a normal non-match; any failure cause falls back to the baseline
source with an error-severity diagnostic; a successfully extracted positive
number is scaled by the fixed factor 10^9).  The network interaction is
abstracted as an `OracleFetchResult` describing the one GET: the call
failed, the body did not parse as structured data, or a parsed tree. -/

/-- A structured keyed/array response tree (typically JSON). -/
inductive Json where
  | str (s : String)
  | num (q : ℚ)
  | arr (items : List Json)
  | obj (fields : List (String × Json))
  | null
deriving Repr

/-- One parsed path segment: plain property descent or array index. -/
inductive PathSegment where
  | prop (name : String)
  | index (i : Nat)
deriving Repr, DecidableEq

/-- First binding of a field name in an object. -/
def lookupField : List (String × Json) → String → Option Json
  | [], _ => none
  | (k, v) :: rest, name => if k = name then some v else lookupField rest name

/-- Modelled from the spec: the path-extraction sub-routine of the
PriceOracleFetcher (`getJsonElement`), over already-parsed typed segments.
Descends the tree segment by segment; a missing property, an out-of-range
index, or descent into a non-container yields `none` (absent — a normal,
reportable non-match, not an error). -/
def getJsonElement : Json → List PathSegment → Option Json
  | v, [] => some v
  | Json.obj fields, PathSegment.prop name :: rest =>
      match lookupField fields name with
      | some v => getJsonElement v rest
      | none => none
  | Json.arr items, PathSegment.index i :: rest =>
      match items.get? i with
      | some v => getJsonElement v rest
      | none => none
  | _, _ :: _ => none

/-- Decimal-digit parsing of a character list (base-10, no sign, no dot). -/
def digitsToNat (cs : List Char) : Option Nat :=
  if cs ≠ [] ∧ cs.all (·.isDigit) then
    some (cs.foldl (fun acc c => acc * 10 + (c.toNat - 48)) 0)
  else none

/-- A well-formed positive number extracted from a tree node: a positive
numeric node, or a string of digits denoting a positive integer. -/
def jsonToPositiveNumber : Json → Option ℚ
  | Json.num q => if 0 < q then some q else none
  | Json.str s =>
      match digitsToNat s.data with
      | some n => if 0 < n then some (n : ℚ) else none
      | none => none
  | _ => none

/-- Outcome of the single oracle GET: the network call failed with a cause,
or it returned a body that either does not parse as structured data or
parses to a tree. -/
inductive OracleFetchResult where
  | failed (cause : String)
  | body (parsed : Option Json)

/-- Modelled from the spec: `GasPriceFetcher.getGasPrice`.  An empty oracle
URL goes straight to the fallback source with no diagnostic.  Otherwise the
extracted value, when it is a well-formed positive number, is scaled by
10^9 and returned; every failure cause (network failure, unparsable body,
unresolved path, non-numeric value) returns the fallback gas price and
emits one error-severity diagnostic — the network cause verbatim, payload
mismatches with a "not a number" message.  The function is total: the
caller never observes an exception. -/
def getGasPrice (gasPriceOracleUrl : String) (gasPriceOraclePath : List PathSegment)
    (fetched : OracleFetchResult) (fallbackGasPrice : ℚ) : ℚ × List String :=
  if gasPriceOracleUrl = "" then (fallbackGasPrice, [])
  else
    match fetched with
    | .failed cause => (fallbackGasPrice, [cause])
    | .body none =>
        (fallbackGasPrice, ["oracle response is not a number (unparsable body)"])
    | .body (some tree) =>
        match getJsonElement tree gasPriceOraclePath with
        | none =>
            (fallbackGasPrice, ["oracle response is not a number (path not found)"])
        | some v =>
            match jsonToPositiveNumber v with
            | none =>
                (fallbackGasPrice,
                  ["oracle response is not a number (non-numeric value)"])
            | some q => (q * 1000000000, [])

/-- C9: for every oracle response from which the configured path extracts a
well-formed positive number `q`, `getGasPrice` returns `q * 10^9` with no
diagnostic; for every failure cause — network call failed, body not
parseable as structured data, path does not resolve, extracted value
non-numeric — it returns the fallback source's value and logs the specific
cause (the verbatim network cause, or a "not a number" payload diagnostic);
the function is total, so the caller never observes an exception.  The
spec's worked example — body `{"result":{"ProposeGasPrice":"39"}}` with
path `.result.ProposeGasPrice` — yields `39 * 10^9`. -/
theorem getGasPrice_correct :
    (∀ (url : String) (path : List PathSegment) (tree v : Json) (q fallback : ℚ),
      url ≠ "" →
      getJsonElement tree path = some v →
      jsonToPositiveNumber v = some q →
      getGasPrice url path (.body (some tree)) fallback = (q * 1000000000, [])) ∧
    (∀ (url : String) (path : List PathSegment) (cause : String) (fallback : ℚ),
      url ≠ "" →
      getGasPrice url path (.failed cause) fallback = (fallback, [cause])) ∧
    (∀ (url : String) (path : List PathSegment) (fallback : ℚ),
      url ≠ "" →
      getGasPrice url path (.body none) fallback =
        (fallback, ["oracle response is not a number (unparsable body)"])) ∧
    (∀ (url : String) (path : List PathSegment) (tree : Json) (fallback : ℚ),
      url ≠ "" →
      getJsonElement tree path = none →
      getGasPrice url path (.body (some tree)) fallback =
        (fallback, ["oracle response is not a number (path not found)"])) ∧
    (∀ (url : String) (path : List PathSegment) (tree v : Json) (fallback : ℚ),
      url ≠ "" →
      getJsonElement tree path = some v →
      jsonToPositiveNumber v = none →
      getGasPrice url path (.body (some tree)) fallback =
        (fallback, ["oracle response is not a number (non-numeric value)"])) ∧
    getGasPrice "https://oracle"
      [PathSegment.prop "result", PathSegment.prop "ProposeGasPrice"]
      (.body (some (Json.obj [("status", Json.str "1"),
        ("result", Json.obj [("ProposeGasPrice", Json.str "39")])])))
      7 = (39 * 1000000000, []) := by
  refine ⟨?_, ?_, ?_, ?_, ?_, ?_⟩
  · intro url path tree v q fallback hurl hget hnum
    rw [getGasPrice, if_neg hurl]
    simp only [hget, hnum]
  · intro url path cause fallback hurl
    rw [getGasPrice, if_neg hurl]
  · intro url path fallback hurl
    rw [getGasPrice, if_neg hurl]
  · intro url path tree fallback hurl hget
    rw [getGasPrice, if_neg hurl]
    simp only [hget]
  · intro url path tree v fallback hurl hget hnum
    rw [getGasPrice, if_neg hurl]
    simp only [hget, hnum]
  · have hurl : ("https://oracle" : String) ≠ "" := by decide
    have h1 : getJsonElement (Json.obj [("status", Json.str "1"),
        ("result", Json.obj [("ProposeGasPrice", Json.str "39")])])
        [PathSegment.prop "result", PathSegment.prop "ProposeGasPrice"] =
        some (Json.str "39") := rfl
    have htn : digitsToNat ("39" : String).data = some 39 := rfl
    have h39 : jsonToPositiveNumber (Json.str "39") = some 39 := by
      simp [jsonToPositiveNumber, htn]
    rw [getGasPrice, if_neg hurl]
    simp only [h1, h39]

/-- Closed witness for `getGasPrice_correct`. -/
theorem getGasPrice_correct_witness :
    getGasPrice "https://oracle"
      [PathSegment.prop "result", PathSegment.prop "ProposeGasPrice"]
      (.body (some (Json.obj [("result",
        Json.obj [("ProposeGasPrice", Json.str "39")])])))
      7 = (39 * 1000000000, []) ∧
    getGasPrice "https://oracle" [PathSegment.prop "result"] (.failed "ECONNREFUSED") 7 =
      (7, ["ECONNREFUSED"]) :=
  ⟨getGasPrice_correct.1 "https://oracle"
      [PathSegment.prop "result", PathSegment.prop "ProposeGasPrice"]
      (Json.obj [("result", Json.obj [("ProposeGasPrice", Json.str "39")])])
      (Json.str "39") 39 7 (by decide) rfl
      (by
        have htn : digitsToNat ("39" : String).data = some 39 := rfl
        simp [jsonToPositiveNumber, htn]),
   getGasPrice_correct.2.1 "https://oracle" [PathSegment.prop "result"]
      "ECONNREFUSED" 7 (by decide)⟩
